import Mathlib

/-!
Shallow embedding of `src/query_processor.py` (an in-memory relational-algebra
evaluator).  Strings are modelled as `List Char`; Python runtime exceptions
(`TypeError` from ordering mismatched types, `IndexError` from indexing a short
tuple) are modelled with `Except RErr`; the global dict `relations` is threaded
explicitly as an association list.
-/

set_option maxRecDepth 4000

abbrev Str := List Char

/-- A stored value: Python `int` or `str` (query_processor.py lines 36-40). -/
inductive Value where
  | int : Int → Value
  | text : Str → Value
deriving DecidableEq, Repr

/-- A relation: the dict `{'attributes': ..., 'tuples': ...}` of the source. -/
structure Relation where
  attributes : List Str
  tuples : List (List Value)
deriving DecidableEq, Repr

/-- The global dict `relations` (line 4), as an insertion-ordered assoc list. -/
abbrev Store := List (Str × Relation)

/-- Python runtime exceptions that the source can raise and never catches
per-query: `TypeError` (ordering on mismatched types) and `IndexError`
(indexing a tuple shorter than the schema). -/
inductive RErr where
  | typeError
  | indexError
deriving DecidableEq, Repr

instance {ε α : Type} [DecidableEq ε] [DecidableEq α] : DecidableEq (Except ε α) := fun a b =>
  match a, b with
  | .ok x, .ok y =>
      if h : x = y then .isTrue (by rw [h]) else .isFalse (by intro hc; cases hc; exact h rfl)
  | .error x, .error y =>
      if h : x = y then .isTrue (by rw [h]) else .isFalse (by intro hc; cases hc; exact h rfl)
  | .ok _, .error _ => .isFalse (by intro hc; cases hc)
  | .error _, .ok _ => .isFalse (by intro hc; cases hc)

/-- `dict` lookup `relations[name]` / `name in relations`. -/
def storeLookup (s : Store) (n : Str) : Option Relation :=
  (s.find? (fun p => p.1 == n)).map (·.2)

/-- `relations[name] = r`: overwrite in place, else append (dict insertion order). -/
def storeInsert (s : Store) (n : Str) (r : Relation) : Store :=
  if s.any (fun p => p.1 == n) then s.map (fun p => if p.1 == n then (n, r) else p)
  else s ++ [(n, r)]

/-- `del relations[name]`. -/
def storeDel (s : Store) (n : Str) : Store :=
  s.filter (fun p => p.1 != n)

/-! ## Python string primitives -/

/-- The whitespace class stripped by Python `str.strip()` and matched by `\s`. -/
def isPySpace (c : Char) : Bool :=
  c == ' ' || c == '\t' || c == '\n' || c == '\r' || c == '\x0b' || c == '\x0c'

/-- Python `s.strip(chars)`: remove leading and trailing characters in `p`. -/
def pyStrip (p : Char → Bool) (l : Str) : Str :=
  ((l.dropWhile p).reverse.dropWhile p).reverse

/-- Python `s.strip()` (whitespace). -/
def pyStripWs (l : Str) : Str := pyStrip isPySpace l

/-- Python `sep in s` (substring containment). -/
def containsSub (sep : Str) : Str → Bool
  | [] => sep.isPrefixOf []
  | c :: t => sep.isPrefixOf (c :: t) || containsSub sep t

/-- Python `s.split(sep)` for a nonempty separator: scan left to right, cut at
each (non-overlapping) occurrence of `sep`.  The `Nat` argument counts the
separator characters still being consumed after a cut (a structural rendering
of jumping past the separator). -/
def splitAux (sep : Str) : Str → Nat → List Str
  | [], _ => [[]]
  | _ :: t, n + 1 => splitAux sep t n
  | c :: t, 0 =>
    if sep ≠ [] ∧ sep.isPrefixOf (c :: t) then
      [] :: splitAux sep t (sep.length - 1)
    else
      match splitAux sep t 0 with
      | [] => [[c]]
      | p :: ps => (c :: p) :: ps

/-- Python `s.split(sep)`. -/
def splitOnSub (sep l : Str) : List Str := splitAux sep l 0

/-- Digits-only parse of a nonempty ASCII digit string. -/
def digitsToNat (l : Str) : Option Nat :=
  if l ≠ [] ∧ l.all Char.isDigit then
    some (l.foldl (fun acc c => acc * 10 + (c.toNat - '0'.toNat)) 0)
  else none

/-- Python `int(s)`: optional surrounding whitespace, optional sign, decimal
digits (numeric-literal underscores are not modelled; no input here uses them).
Returns `none` where Python raises `ValueError`. -/
def pyIntParse (s : Str) : Option Int :=
  match pyStripWs s with
  | '+' :: ds => (digitsToNat ds).map Int.ofNat
  | '-' :: ds => (digitsToNat ds).map (fun n => -(n : Int))
  | ds => (digitsToNat ds).map Int.ofNat

/-! ## Python value comparison semantics -/

/-- Python `<` on strings: lexicographic by code point. -/
def strLt : Str → Str → Bool
  | [], [] => false
  | [], _ :: _ => true
  | _ :: _, [] => false
  | a :: as, b :: bs => if a = b then strLt as bs else decide (a < b)

/-- Python `==` between stored values: cross-type comparison is `False`. -/
def valEq (a b : Value) : Bool :=
  match a, b with
  | .int x, .int y => x == y
  | .text x, .text y => x == y
  | _, _ => false

/-- Python `<`: raises `TypeError` between `int` and `str`. -/
def valLt : Value → Value → Except RErr Bool
  | .int x, .int y => .ok (decide (x < y))
  | .text x, .text y => .ok (strLt x y)
  | _, _ => .error .typeError

/-- Python `>`. -/
def valGt : Value → Value → Except RErr Bool
  | .int x, .int y => .ok (decide (y < x))
  | .text x, .text y => .ok (strLt y x)
  | _, _ => .error .typeError

/-- Python `<=`. -/
def valLe : Value → Value → Except RErr Bool
  | .int x, .int y => .ok (decide (x ≤ y))
  | .text x, .text y => .ok (strLt x y || x == y)
  | _, _ => .error .typeError

/-- Python `>=`. -/
def valGe : Value → Value → Except RErr Bool
  | .int x, .int y => .ok (decide (y ≤ x))
  | .text x, .text y => .ok (strLt y x || x == y)
  | _, _ => .error .typeError

/-- Do the two values have the same runtime type? -/
def sameType (a b : Value) : Bool :=
  match a, b with
  | .int _, .int _ => true
  | .text _, .text _ => true
  | _, _ => false

/-- Python `t[i]` on a list: `IndexError` when out of range. -/
def getVal (t : List Value) (i : Nat) : Except RErr Value :=
  match t.get? i with
  | some v => .ok v
  | none => .error .indexError

/-! ## Exception-aware list combinators (loop-shaped, left to right) -/

/-- Effects run left to right, stopping at the first exception (a Python
`for` loop building a list). -/
def mapME (f : α → Except RErr β) : List α → Except RErr (List β)
  | [] => .ok []
  | a :: l =>
    match f a with
    | .error e => .error e
    | .ok b =>
      match mapME f l with
      | .error e => .error e
      | .ok r => .ok (b :: r)

/-- A Python filtering loop: test each element in order, keep it on `True`. -/
def filterME (f : α → Except RErr Bool) : List α → Except RErr (List α)
  | [] => .ok []
  | a :: l =>
    match f a with
    | .error e => .error e
    | .ok b =>
      match filterME f l with
      | .error e => .error e
      | .ok r => .ok (if b then a :: r else r)

/-- A short-circuiting conjunction loop (`for ...: if not ...: break`). -/
def allME (f : α → Except RErr Bool) : List α → Except RErr Bool
  | [] => .ok true
  | a :: l =>
    match f a with
    | .error e => .error e
    | .ok true => allME f l
    | .ok false => .ok false

/-! ## A backtracking matcher for the exact regular expressions of the source

The source uses `re.match` with patterns built only from literals, `\s+`,
`\s*`, and the capturing pieces `(.+?)` (lazy), `(.+)` (greedy), `(\w+)`
(greedy) and `([^)]+)` (greedy).  For such concatenations, backtracking is
exactly: a greedy piece tries the longest class-run first, a lazy piece the
shortest, and the first choice whose continuation matches wins.  `re.match`
anchors at the start only (a match need not reach the end of the string). -/

/-- The character classes appearing in the source's patterns. -/
inductive CClass where
  | ws          -- `\s`
  | word        -- `\w`
  | dot         -- `.` (anything but a newline)
  | notRParen   -- `[^)]`
deriving DecidableEq, Repr

def CClass.test : CClass → Char → Bool
  | .ws => isPySpace
  | .word => fun c => c.isAlphanum || c == '_'
  | .dot => fun c => c != '\n'
  | .notRParen => fun c => c != ')'

/-- One concatenated piece of a pattern. -/
inductive RElem where
  | lit : Str → RElem          -- a literal string
  | star : CClass → RElem      -- greedy `X*`, non-capturing
  | plus : CClass → RElem      -- greedy `X+`, non-capturing
  | capPlus : CClass → RElem   -- greedy capturing `(X+)`
  | capLazy : CClass → RElem   -- lazy capturing `(X+?)`
deriving DecidableEq, Repr

/-- `reMatch ps s`: match the concatenation `ps` at the start of `s`
(re.match), returning the list of captured groups in order. -/
def reMatch : List RElem → Str → Option (List Str)
  | [], _ => some []
  | .lit cs :: ps, s =>
    if cs.isPrefixOf s then reMatch ps (s.drop cs.length) else none
  | .star cl :: ps, s =>
    let m := (s.takeWhile cl.test).length
    ((List.range (m + 1)).map (fun j => m - j)).findSome? (fun i => reMatch ps (s.drop i))
  | .plus cl :: ps, s =>
    let m := (s.takeWhile cl.test).length
    ((List.range m).map (fun j => m - j)).findSome? (fun i => reMatch ps (s.drop i))
  | .capPlus cl :: ps, s =>
    let m := (s.takeWhile cl.test).length
    ((List.range m).map (fun j => m - j)).findSome?
      (fun i => (reMatch ps (s.drop i)).map (fun caps => s.take i :: caps))
  | .capLazy cl :: ps, s =>
    let m := (s.takeWhile cl.test).length
    ((List.range m).map (fun j => j + 1)).findSome?
      (fun i => (reMatch ps (s.drop i)).map (fun caps => s.take i :: caps))

/-- Collapse a match of a two-group pattern to its pair of captures. -/
def caps2 (o : Option (List Str)) : Option (Str × Str) :=
  match o with
  | some [a, b] => some (a, b)
  | _ => none

/-- `project\s+(.+?)\s*\(\s*(.+)\s*\)` (line 285). -/
def projectPat : List RElem :=
  [.lit ('p' :: 'r' :: 'o' :: 'j' :: 'e' :: 'c' :: 't' :: []), .plus .ws, .capLazy .dot,
   .star .ws, .lit ['('], .star .ws, .capPlus .dot, .star .ws, .lit [')']]

/-- `select\s+(.+?)\s*\(\s*(.+)\s*\)` (line 303). -/
def selectPat : List RElem :=
  [.lit ('s' :: 'e' :: 'l' :: 'e' :: 'c' :: 't' :: []), .plus .ws, .capLazy .dot,
   .star .ws, .lit ['('], .star .ws, .capPlus .dot, .star .ws, .lit [')']]

/-- `<kw>\s+(\w+)\s+(\w+)` (lines 319, 326, 333, 340). -/
def relPairPat (kw : Str) : List RElem :=
  [.lit kw, .plus .ws, .capPlus .word, .plus .ws, .capPlus .word]

/-- `(\w+)\s*\(([^)]+)\)\s*=\s*\{` (line 10). -/
def headerPat : List RElem :=
  [.capPlus .word, .star .ws, .lit ['('], .capPlus .notRParen, .lit [')'],
   .star .ws, .lit ['='], .star .ws, .lit ['\x7b']]

/-- `re.match(r'^\w+$', s)` (lines 291, 309): the whole string is word chars. -/
def isWordStr (s : Str) : Bool :=
  !s.isEmpty && s.all (CClass.test .word)

/-! ## The condition evaluator (lines 92-126) -/

/-- The operator list of line 95, in source order: `=` is tried before `!=`. -/
def opsList : List Str :=
  [['>', '='], ['<', '='], ['>'], ['<'], ['='], ['!', '=']]

/-- Literal coercion of lines 107-110: `int(value)`, else `value.strip('"\'')`. -/
def coerceLit (v : Str) : Value :=
  match pyIntParse v with
  | some n => .int n
  | none => .text (pyStrip (fun c => c == '\x22' || c == '\x27') v)

/-- The comparison dispatch of lines 113-124 (the `op == '=='` disjunct is
dead: `'=='` is not in the operator list). -/
def applyOp (op : Str) (tv lv : Value) : Except RErr Bool :=
  if op = ['>'] then valGt tv lv
  else if op = ['<'] then valLt tv lv
  else if op = ['>', '='] then valGe tv lv
  else if op = ['<', '='] then valLe tv lv
  else if op = ['='] then .ok (valEq tv lv)
  else if op = ['!', '='] then .ok (!valEq tv lv)
  else .ok false

/-- The loop of lines 95-124 over `opsList`: on the first operator that occurs
in the condition, splits into exactly two parts whose left part (stripped) is
an attribute, compare; otherwise keep scanning; fall out with `False`. -/
def evalCondLoop (cond : Str) (attributes : List Str) (tuple_data : List Value) :
    List Str → Except RErr Bool
  | [] => .ok false
  | op :: rest =>
    if containsSub op cond then
      match splitOnSub op cond with
      | [p0, p1] =>
        let attr := pyStripWs p0
        if attr ∈ attributes then
          match getVal tuple_data (attributes.indexOf attr) with
          | .error e => .error e
          | .ok tv => applyOp op tv (coerceLit (pyStripWs p1))
        else evalCondLoop cond attributes tuple_data rest
      | _ => evalCondLoop cond attributes tuple_data rest
    else evalCondLoop cond attributes tuple_data rest

/-- `evaluate_condition` (lines 92-126). -/
def evaluate_condition (cond : Str) (attributes : List Str) (tuple_data : List Value) :
    Except RErr Bool :=
  evalCondLoop cond attributes tuple_data opsList

/-! ## Relational operators (lines 48-256) -/

/-- The dedup loop with a `seen` set (lines 78-85, 185-193). -/
def dedupAux (seen : List (List Value)) : List (List Value) → List (List Value)
  | [] => []
  | t :: ts => if t ∈ seen then dedupAux seen ts else t :: dedupAux (t :: seen) ts

def dedupTuples (l : List (List Value)) : List (List Value) := dedupAux [] l

/-- A dedup loop that additionally keeps only tuples satisfying `p`
(lines 216-222, 245-251). -/
def dedupFilterAux (p : List Value → Bool) (seen : List (List Value)) :
    List (List Value) → List (List Value)
  | [] => []
  | t :: ts =>
    if p t then
      if t ∈ seen then dedupFilterAux p seen ts
      else t :: dedupFilterAux p (t :: seen) ts
    else dedupFilterAux p seen ts

/-- Core of `select_operation` (lines 54-63), given the looked-up relation. -/
def select_rel (rel : Relation) (condition : Str) : Except RErr Relation :=
  match filterME (fun t => evaluate_condition condition rel.attributes t) rel.tuples with
  | .error e => .error e
  | .ok ts => .ok ⟨rel.attributes, ts⟩

/-- `select_operation` (lines 48-63): `None` when the name is absent. -/
def select_operation (store : Store) (relation_name : Str) (condition : Str) :
    Except RErr (Option Relation) :=
  match storeLookup store relation_name with
  | none => .ok none
  | some rel =>
    match select_rel rel condition with
    | .error e => .error e
    | .ok r => .ok (some r)

/-- The index list of lines 73-76: positions of the requested attributes that
exist in the schema; unknown names are silently skipped. -/
def projIndices (schema : List Str) (attrs : List Str) : List Nat :=
  attrs.filterMap (fun a => if a ∈ schema then some (schema.indexOf a) else none)

/-- Core of `project_operation` (lines 70-90): project every tuple to the
found indices, then deduplicate (the loop of lines 81-85 interleaves the two,
which produces the same value since the single possible exception is the same
everywhere); the result schema is `attrs` as given. -/
def project_rel (rel : Relation) (attrs : List Str) : Except RErr Relation :=
  match mapME (fun t => mapME (getVal t) (projIndices rel.attributes attrs)) rel.tuples with
  | .error e => .error e
  | .ok projected => .ok ⟨attrs, dedupTuples projected⟩

/-- `project_operation` (lines 65-90). -/
def project_operation (store : Store) (relation_name : Str) (attrs : List Str) :
    Except RErr (Option Relation) :=
  match storeLookup store relation_name with
  | none => .ok none
  | some rel =>
    match project_rel rel attrs with
    | .error e => .error e
    | .ok r => .ok (some r)

/-- The per-pair join test of lines 152-158: every shared attribute name has
equal values (Python `!=` between values never raises; `tuple1` is indexed
before `tuple2`). -/
def joinCheck (r1 r2 : Relation) (common : List Str) (t1 t2 : List Value) :
    Except RErr Bool :=
  allME (fun attr =>
    match getVal t1 (r1.attributes.indexOf attr) with
    | .error e => .error e
    | .ok v1 =>
      match getVal t2 (r2.attributes.indexOf attr) with
      | .error e => .error e
      | .ok v2 => .ok (valEq v1 v2)) common

/-- The `enumerate(rel2['attributes'])` loop of lines 163-165: collect, in
order and with their original indices, the values of `tuple2` whose attribute
name is not in `attrs1`. -/
def extraVals (attrs1 : List Str) (t2 : List Value) : Nat → List Str → Except RErr (List Value)
  | _, [] => .ok []
  | i, a :: rest =>
    if a ∈ attrs1 then extraVals attrs1 t2 (i + 1) rest
    else
      match getVal t2 i with
      | .error e => .error e
      | .ok v =>
        match extraVals attrs1 t2 (i + 1) rest with
        | .error e => .error e
        | .ok vs => .ok (v :: vs)

/-- The combined tuple of lines 162-165: `tuple1` followed by the values of
`tuple2` whose attribute name is not in `rel1`'s schema. -/
def combineTuple (r1 r2 : Relation) (t1 t2 : List Value) : Except RErr (List Value) :=
  match extraVals r1.attributes t2 0 r2.attributes with
  | .error e => .error e
  | .ok extra => .ok (t1 ++ extra)

/-- The inner tuple loop of lines 150-166, accumulating matched combinations. -/
def joinInner (r1 r2 : Relation) (common : List Str) (t1 : List Value) :
    List (List Value) → List (List Value) → Except RErr (List (List Value))
  | acc, [] => .ok acc
  | acc, t2 :: ts =>
    match joinCheck r1 r2 common t1 t2 with
    | .error e => .error e
    | .ok true =>
      match combineTuple r1 r2 t1 t2 with
      | .error e => .error e
      | .ok c => joinInner r1 r2 common t1 (acc ++ [c]) ts
    | .ok false => joinInner r1 r2 common t1 acc ts

/-- The outer tuple loop of lines 149-166. -/
def joinOuter (r1 r2 : Relation) (common : List Str) :
    List (List Value) → List (List Value) → Except RErr (List (List Value))
  | acc, [] => .ok acc
  | acc, t1 :: ts =>
    match joinInner r1 r2 common t1 acc r2.tuples with
    | .error e => .error e
    | .ok acc2 => joinOuter r1 r2 common acc2 ts

/-- Core of `join_operation` (lines 133-171).  The source iterates the Python
set `set(a1) & set(a2)` whose order is unspecified; the conjunction it computes
is order-independent, and the only order-sensitive observable is which of two
`IndexError`s fires first — the same exception value either way — so the model
fixes `rel1`-schema order. -/
def join_rel (r1 r2 : Relation) : Except RErr Relation :=
  let common := r1.attributes.filter (fun a => a ∈ r2.attributes)
  let result_attrs :=
    r2.attributes.foldl (fun acc a => if a ∈ acc then acc else acc ++ [a]) r1.attributes
  match joinOuter r1 r2 common [] r1.tuples with
  | .error e => .error e
  | .ok tss => .ok ⟨result_attrs, tss⟩

/-- `join_operation` (lines 128-171); the unused `condition` parameter of the
source is dropped. -/
def join_operation (store : Store) (n1 n2 : Str) : Except RErr (Option Relation) :=
  match storeLookup store n1, storeLookup store n2 with
  | some r1, some r2 =>
    match join_rel r1 r2 with
    | .error e => .error e
    | .ok r => .ok (some r)
  | _, _ => .ok none

/-- Core of `union_operation` (lines 181-198): `None` on schema mismatch, else
the deduplicated concatenation.  No code path of the source can raise here. -/
def union_rel (r1 r2 : Relation) : Option Relation :=
  if r1.attributes = r2.attributes then
    some ⟨r1.attributes, dedupTuples (r1.tuples ++ r2.tuples)⟩
  else none

/-- `union_operation` (lines 173-198). -/
def union_operation (store : Store) (n1 n2 : Str) : Option Relation :=
  match storeLookup store n1, storeLookup store n2 with
  | some r1, some r2 => union_rel r1 r2
  | _, _ => none

/-- Core of `intersection_operation` (lines 208-227). -/
def intersection_rel (r1 r2 : Relation) : Option Relation :=
  if r1.attributes = r2.attributes then
    some ⟨r1.attributes, dedupFilterAux (fun t => t ∈ r2.tuples) [] r1.tuples⟩
  else none

/-- `intersection_operation` (lines 200-227). -/
def intersection_operation (store : Store) (n1 n2 : Str) : Option Relation :=
  match storeLookup store n1, storeLookup store n2 with
  | some r1, some r2 => intersection_rel r1 r2
  | _, _ => none

/-- Core of `difference_operation` (lines 237-256). -/
def difference_rel (r1 r2 : Relation) : Option Relation :=
  if r1.attributes = r2.attributes then
    some ⟨r1.attributes, dedupFilterAux (fun t => !(t ∈ r2.tuples : Bool)) [] r1.tuples⟩
  else none

/-- `difference_operation` (lines 229-256). -/
def difference_operation (store : Store) (n1 n2 : Str) : Option Relation :=
  match storeLookup store n1, storeLookup store n2 with
  | some r1, some r2 => difference_rel r1 r2
  | _, _ => none

/-! ## The executor (lines 258-346) -/

/-- The reserved staging key `"temp_result"` (line 264). -/
def tempName : Str := ('t' :: 'e' :: 'm' :: 'p' :: '_' :: 'r' :: 'e' :: 's' :: 'u' :: 'l' :: 't' :: [])

/-- `execute_on_result` (lines 258-275): stage the intermediate result under
`tempName`, run the operation, delete the staging entry.  On an exception the
`del` of line 273 never runs, so the staged entry persists (the model returns
the store in both outcomes). -/
def execute_on_result (store : Store) (operation_result : Option Relation)
    (op : Store → Except RErr (Option Relation)) :
    Except RErr (Option Relation) × Store :=
  match operation_result with
  | none => (.ok none, store)
  | some r =>
    let s1 := storeInsert store tempName r
    match op s1 with
    | .ok v => (.ok v, storeDel s1 tempName)
    | .error e => (.error e, s1)

/-- The four binary-operator branches of `parse_query` (lines 318-344) plus
the final `return None` (line 346). -/
def parse_binary (store : Store) (q : Str) : Except RErr (Option Relation) :=
  match caps2 (reMatch (relPairPat ('j' :: 'o' :: 'i' :: 'n' :: [])) q) with
  | some (r1, r2) => join_operation store r1 r2
  | none =>
  match caps2 (reMatch (relPairPat ('u' :: 'n' :: 'i' :: 'o' :: 'n' :: [])) q) with
  | some (r1, r2) => .ok (union_operation store r1 r2)
  | none =>
  match caps2 (reMatch (relPairPat
      ('i' :: 'n' :: 't' :: 'e' :: 'r' :: 's' :: 'e' :: 'c' :: 't' :: 'i' :: 'o' :: 'n' :: [])) q) with
  | some (r1, r2) => .ok (intersection_operation store r1 r2)
  | none =>
  match caps2 (reMatch (relPairPat
      ('d' :: 'i' :: 'f' :: 'f' :: 'e' :: 'r' :: 'e' :: 'n' :: 'c' :: 'e' :: [])) q) with
  | some (r1, r2) => .ok (difference_operation store r1 r2)
  | none => .ok none

/-- The attribute-list split of lines 293/299. -/
def splitAttrs (attrs_str : Str) : List Str :=
  (splitOnSub [','] attrs_str).map pyStripWs

/-! ## Matcher consumption bounds (needed for the recursion of `parse_query`) -/

theorem findSome?_ex {α β : Type} {l : List α} {f : α → Option β} {b : β}
    (h : l.findSome? f = some b) : ∃ a ∈ l, f a = some b := by
  induction l with
  | nil => simp [List.findSome?] at h
  | cons x xs ih =>
    rw [List.findSome?] at h
    cases hx : f x with
    | some v => rw [hx] at h; exact ⟨x, by simp, by rw [hx]; exact h⟩
    | none =>
      rw [hx] at h
      obtain ⟨a, ha, hfa⟩ := ih h
      exact ⟨a, by simp [ha], hfa⟩

theorem isPrefixOf_ex {α : Type} [DecidableEq α] :
    ∀ (a b : List α), a.isPrefixOf b = true ↔ ∃ t, b = a ++ t
  | [], b => by simp [List.isPrefixOf]
  | _ :: _, [] => by simp [List.isPrefixOf]
  | a :: as, b :: bs => by
    simp only [List.isPrefixOf, Bool.and_eq_true, beq_iff_eq]
    constructor
    · rintro ⟨rfl, h⟩
      obtain ⟨t, rfl⟩ := (isPrefixOf_ex as bs).1 h
      exact ⟨t, rfl⟩
    · rintro ⟨t, ht⟩
      rw [List.cons_append] at ht
      injection ht with h1 h2
      exact ⟨h1.symm, (isPrefixOf_ex as bs).2 ⟨t, h2⟩⟩

theorem isPrefixOf_length_le {α : Type} [DecidableEq α] {a b : List α}
    (h : a.isPrefixOf b = true) : a.length ≤ b.length := by
  obtain ⟨t, rfl⟩ := (isPrefixOf_ex a b).1 h
  simp

theorem lenDropWhileLe {α : Type} (p : α → Bool) :
    ∀ l : List α, (l.dropWhile p).length ≤ l.length
  | [] => Nat.le_refl _
  | a :: l => by
    rw [List.dropWhile_cons]
    by_cases h : p a = true
    · simp only [h, if_true]
      exact Nat.le_trans (lenDropWhileLe p l) (Nat.le_succ _)
    · simp [h]

theorem lenTakeWhileLe {α : Type} (p : α → Bool) :
    ∀ l : List α, (l.takeWhile p).length ≤ l.length
  | [] => Nat.le_refl _
  | a :: l => by
    rw [List.takeWhile_cons]
    by_cases h : p a = true
    · simpa [h] using Nat.succ_le_succ (lenTakeWhileLe p l)
    · simp [h]

theorem pyStrip_length_le (p : Char → Bool) (l : Str) :
    (pyStrip p l).length ≤ l.length := by
  unfold pyStrip
  rw [List.length_reverse]
  calc ((l.dropWhile p).reverse.dropWhile p).length
      ≤ (l.dropWhile p).reverse.length := lenDropWhileLe p _
    _ = (l.dropWhile p).length := List.length_reverse _
    _ ≤ l.length := lenDropWhileLe p l

/-- Total length of all captured groups. -/
def capsLen (caps : List Str) : Nat := (caps.map List.length).sum

/-- A lower bound on the characters consumed by a pattern element, the
capturing ones counted through their captures instead. -/
def patMin : RElem → Nat
  | .lit cs => cs.length
  | .plus _ => 1
  | _ => 0

def patsMin (ps : List RElem) : Nat := (ps.map patMin).sum

theorem reMatch_len :
    ∀ (ps : List RElem) (s : Str) (caps : List Str),
      reMatch ps s = some caps → capsLen caps + patsMin ps ≤ s.length := by
  intro ps
  induction ps with
  | nil =>
    intro s caps h
    simp only [reMatch, Option.some_inj] at h
    subst h
    simp [capsLen, patsMin]
  | cons e ps ih =>
    intro s caps h
    cases e with
    | lit cs =>
      simp only [reMatch] at h
      by_cases hpre : cs.isPrefixOf s = true
      · rw [if_pos hpre] at h
        have ihh := ih _ _ h
        have h1 : cs.length ≤ s.length := isPrefixOf_length_le hpre
        have h2 : (s.drop cs.length).length = s.length - cs.length := List.length_drop _ _
        rw [h2] at ihh
        simp only [patsMin, List.map_cons, List.sum_cons, patMin]
        have : patsMin ps = (ps.map patMin).sum := rfl
        omega
      · rw [if_neg hpre] at h
        exact absurd h (by simp)
    | star cl =>
      simp only [reMatch] at h
      obtain ⟨i, hi, hf⟩ := findSome?_ex h
      simp only [List.mem_map, List.mem_range] at hi
      obtain ⟨j, hj, rfl⟩ := hi
      have hm : ((s.takeWhile cl.test).length) ≤ s.length := lenTakeWhileLe _ _
      have ihh := ih _ _ hf
      rw [List.length_drop] at ihh
      simp only [patsMin, List.map_cons, List.sum_cons, patMin]
      have : patsMin ps = (ps.map patMin).sum := rfl
      omega
    | plus cl =>
      simp only [reMatch] at h
      obtain ⟨i, hi, hf⟩ := findSome?_ex h
      simp only [List.mem_map, List.mem_range] at hi
      obtain ⟨j, hj, rfl⟩ := hi
      have hm : ((s.takeWhile cl.test).length) ≤ s.length := lenTakeWhileLe _ _
      have ihh := ih _ _ hf
      rw [List.length_drop] at ihh
      simp only [patsMin, List.map_cons, List.sum_cons, patMin]
      have : patsMin ps = (ps.map patMin).sum := rfl
      omega
    | capPlus cl =>
      simp only [reMatch] at h
      obtain ⟨i, hi, hf⟩ := findSome?_ex h
      simp only [List.mem_map, List.mem_range] at hi
      obtain ⟨j, hj, rfl⟩ := hi
      have hm : ((s.takeWhile cl.test).length) ≤ s.length := lenTakeWhileLe _ _
      cases hr : reMatch ps (s.drop (((s.takeWhile cl.test).length) - j)) with
      | none => rw [hr] at hf; simp at hf
      | some cs =>
        rw [hr] at hf
        simp only [Option.map_some', Option.some_inj] at hf
        subst hf
        have ihh := ih _ _ hr
        rw [List.length_drop] at ihh
        have htake : (s.take ((s.takeWhile cl.test).length - j)).length ≤
            (s.takeWhile cl.test).length - j := by
          rw [List.length_take]; exact Nat.min_le_left _ _
        simp only [capsLen, List.map_cons, List.sum_cons, patsMin, patMin]
        have e1 : capsLen cs = (cs.map List.length).sum := rfl
        have e2 : patsMin ps = (ps.map patMin).sum := rfl
        omega
    | capLazy cl =>
      simp only [reMatch] at h
      obtain ⟨i, hi, hf⟩ := findSome?_ex h
      simp only [List.mem_map, List.mem_range] at hi
      obtain ⟨j, hj, rfl⟩ := hi
      have hm : ((s.takeWhile cl.test).length) ≤ s.length := lenTakeWhileLe _ _
      cases hr : reMatch ps (s.drop (j + 1)) with
      | none => rw [hr] at hf; simp at hf
      | some cs =>
        rw [hr] at hf
        simp only [Option.map_some', Option.some_inj] at hf
        subst hf
        have ihh := ih _ _ hr
        rw [List.length_drop] at ihh
        have htake : (s.take (j + 1)).length ≤ j + 1 := by
          rw [List.length_take]; exact Nat.min_le_left _ _
        simp only [capsLen, List.map_cons, List.sum_cons, patsMin, patMin]
        have e1 : capsLen cs = (cs.map List.length).sum := rfl
        have e2 : patsMin ps = (ps.map patMin).sum := rfl
        omega

theorem caps2_some {o : Option (List Str)} {a b : Str} (h : caps2 o = some (a, b)) :
    o = some [a, b] := by
  cases o with
  | none => simp [caps2] at h
  | some l =>
    match l with
    | [] => simp [caps2] at h
    | [_] => simp [caps2] at h
    | [x, y] =>
      simp only [caps2, Option.some_inj, Prod.mk.injEq] at h
      rw [h.1, h.2]
    | _ :: _ :: _ :: _ => simp [caps2] at h

theorem projGroup2_lt {s g1 g2 : Str}
    (h : caps2 (reMatch projectPat s) = some (g1, g2)) : g2.length < s.length := by
  have h2 := reMatch_len _ _ _ (caps2_some h)
  simp [capsLen, patsMin, patMin, projectPat] at h2
  omega

theorem selGroup2_lt {s g1 g2 : Str}
    (h : caps2 (reMatch selectPat s) = some (g1, g2)) : g2.length < s.length := by
  have h2 := reMatch_len _ _ _ (caps2_some h)
  simp [capsLen, patsMin, patMin, selectPat] at h2
  omega

mutual

/-- `parse_query` (lines 277-346).  The stripped query is tried against the
nested-project pattern, then (falling through when the project branch does not
`return`) the nested-select pattern, then the four binary forms, else the
final `return None`.  The store is threaded: it changes only through
`execute_on_result`.  A parenthesized operand that is a single word is a
direct relation reference; otherwise the operand is parsed recursively, and
a `None` inner result falls through to the next top-level rule. -/
def parse_query (store : Store) (q : Str) : Except RErr (Option Relation) × Store :=
  match hp : caps2 (reMatch projectPat (pyStripWs q)) with
  | some (g1, g2) =>
    if isWordStr (pyStripWs g2) then
      (project_operation store (pyStripWs g2) (splitAttrs (pyStripWs g1)), store)
    else
      match parse_query store (pyStripWs g2) with
      | (.error e, s1) => (.error e, s1)
      | (.ok (some r), s1) =>
        execute_on_result s1 (some r)
          (fun s => project_operation s tempName (splitAttrs (pyStripWs g1)))
      | (.ok none, s1) => parse_from_select s1 (pyStripWs q)
  | none => parse_from_select store (pyStripWs q)
termination_by (q.length, 1)
decreasing_by
  · apply Prod.Lex.left
    have h1 : (pyStripWs g2).length ≤ g2.length := pyStrip_length_le _ _
    have h2 : g2.length < (pyStripWs q).length := projGroup2_lt hp
    have h3 : (pyStripWs q).length ≤ q.length := pyStrip_length_le _ _
    omega
  · have hle : (pyStripWs q).length ≤ q.length := pyStrip_length_le isPySpace q
    rcases Nat.lt_or_eq_of_le hle with hlt | heq
    · exact Prod.Lex.left _ _ hlt
    · rw [heq]; exact Prod.Lex.right _ (by omega)
  · have hle : (pyStripWs q).length ≤ q.length := pyStrip_length_le isPySpace q
    rcases Nat.lt_or_eq_of_le hle with hlt | heq
    · exact Prod.Lex.left _ _ hlt
    · rw [heq]; exact Prod.Lex.right _ (by omega)

/-- The select branch and everything after it (lines 302-346), applied to the
already-stripped query text. -/
def parse_from_select (store : Store) (q' : Str) : Except RErr (Option Relation) × Store :=
  match hs : caps2 (reMatch selectPat q') with
  | some (g1, g2) =>
    if isWordStr (pyStripWs g2) then
      (select_operation store (pyStripWs g2) (pyStripWs g1), store)
    else
      match parse_query store (pyStripWs g2) with
      | (.error e, s1) => (.error e, s1)
      | (.ok (some r), s1) =>
        execute_on_result s1 (some r) (fun s => select_operation s tempName (pyStripWs g1))
      | (.ok none, s1) => (parse_binary s1 q', s1)
  | none => (parse_binary store q', store)
termination_by (q'.length, 0)
decreasing_by
  apply Prod.Lex.left
  have h1 : (pyStripWs g2).length ≤ g2.length := pyStrip_length_le _ _
  have h2 : g2.length < q'.length := selGroup2_lt hs
  omega

end

/-! ## The definition parser (lines 6-46) -/

/-- Python `s.find(c)`: index of the first occurrence. -/
def firstIdx (c : Char) : Str → Option Nat
  | [] => none
  | d :: t => if d = c then some 0 else (firstIdx c t).map (· + 1)

/-- Python `s.rfind(c)`: index of the last occurrence. -/
def lastIdx (c : Char) (l : Str) : Option Nat :=
  (firstIdx c l.reverse).map (fun i => l.length - 1 - i)

/-- One tuple value (lines 33-40): `val.strip().strip('"')`, then `int(val)`
if it parses, else keep the text. -/
def convertVal (v : Str) : Value :=
  let s := pyStrip (fun c => c == '\x22') (pyStripWs v)
  match pyIntParse s with
  | some n => .int n
  | none => .text s

/-- The tuple-line loop of lines 29-41: split the body on newlines, strip each
line, skip blank and `#`-prefixed lines, split the rest on commas. -/
def parseTupleLines (body : Str) : List (List Value) :=
  (splitOnSub ['\n'] body).filterMap (fun line =>
    let l := pyStripWs line
    if l = [] then none
    else if l.head? = some '#' then none
    else some ((splitOnSub [','] l).map convertVal))

/-- `parse_relation` (lines 6-46): header regex, body between the first `{`
and the last `}`, tuple lines, store under the parsed name (overwriting). -/
def parse_relation (store : Store) (text : Str) : Store :=
  match caps2 (reMatch headerPat text) with
  | none => store
  | some (name, attrsRaw) =>
    let attrs := (splitOnSub [','] attrsRaw).map pyStripWs
    match firstIdx '\x7b' text, lastIdx '\x7d' text with
    | some st, some en =>
      let body := pyStripWs ((text.drop (st + 1)).take (en - (st + 1)))
      let tuples := if body = [] then [] else parseTupleLines body
      storeInsert store name ⟨attrs, tuples⟩
    | _, _ => store

/-- Data-model invariant (§3 of the spec): every tuple has exactly as many
values as the schema has attribute names. -/
def relInv (r : Relation) : Prop :=
  ∀ t ∈ r.tuples, t.length = r.attributes.length

instance (r : Relation) : Decidable (relInv r) := by
  unfold relInv; infer_instance

/-- First-occurrence deduplication, as the spec words it: keep each tuple and
drop its later duplicates. -/
def firstSeenDedup : List (List Value) → List (List Value)
  | [] => []
  | t :: ts => t :: firstSeenDedup (ts.filter (fun u => u ≠ t))
termination_by l => l.length
decreasing_by
  have := List.length_filter_le (fun u => decide (u ≠ t)) ts
  simp only [List.length_cons]
  omega

/-- The comparison a condition `a <op> v` is specified to perform: look up
`a`'s value in the tuple (Python indexing semantics) and apply `op` to it and
the coerced literal. -/
def condResult (op : Str) (A : List Str) (T : List Value) (a v : Str) : Except RErr Bool :=
  match getVal T (A.indexOf a) with
  | .error e => .error e
  | .ok tv => applyOp op tv (coerceLit v)

/-! # Lemmas -/


/-! ## Monadic-loop combinators -/

theorem filterME_ok_sub {α : Type} {f : α → Except RErr Bool} :
    ∀ {l r : List α}, filterME f l = .ok r → ∀ x ∈ r, x ∈ l := by
  intro l
  induction l with
  | nil =>
    intro r h x hx
    simp only [filterME, Except.ok.injEq] at h
    subst h
    simp at hx
  | cons a t ih =>
    intro r h x hx
    rw [filterME] at h
    cases hb : f a with
    | error e => rw [hb] at h; cases h
    | ok b =>
      rw [hb] at h
      cases hr : filterME f t with
      | error e => rw [hr] at h; cases h
      | ok r' =>
        rw [hr] at h
        injection h with h
        subst h
        cases b with
        | true =>
          simp only [if_true] at hx
          rcases List.mem_cons.1 hx with rfl | hx'
          · exact List.mem_cons_self _ _
          · exact List.mem_cons_of_mem _ (ih hr x hx')
        | false =>
          simp only [Bool.false_eq_true, if_false] at hx
          exact List.mem_cons_of_mem _ (ih hr x hx)

theorem mapME_ok_length {α β : Type} {f : α → Except RErr β} :
    ∀ {l : List α} {r : List β}, mapME f l = .ok r → r.length = l.length := by
  intro l
  induction l with
  | nil => intro r h; simp only [mapME, Except.ok.injEq] at h; subst h; rfl
  | cons a t ih =>
    intro r h
    rw [mapME] at h
    cases hb : f a with
    | error e => rw [hb] at h; cases h
    | ok b =>
      rw [hb] at h
      cases hr : mapME f t with
      | error e => rw [hr] at h; cases h
      | ok r' =>
        rw [hr] at h
        injection h with h
        subst h
        simp [ih hr]

theorem mapME_ok_mem {α β : Type} {f : α → Except RErr β} :
    ∀ {l : List α} {r : List β}, mapME f l = .ok r →
      ∀ x ∈ r, ∃ a ∈ l, f a = .ok x := by
  intro l
  induction l with
  | nil => intro r h x hx; simp only [mapME, Except.ok.injEq] at h; subst h; simp at hx
  | cons a t ih =>
    intro r h x hx
    rw [mapME] at h
    cases hb : f a with
    | error e => rw [hb] at h; cases h
    | ok b =>
      rw [hb] at h
      cases hr : mapME f t with
      | error e => rw [hr] at h; cases h
      | ok r' =>
        rw [hr] at h
        injection h with h
        subst h
        rcases List.mem_cons.1 hx with rfl | hx'
        · exact ⟨a, List.mem_cons_self _ _, hb⟩
        · obtain ⟨a', ha', hfa'⟩ := ih hr x hx'
          exact ⟨a', List.mem_cons_of_mem _ ha', hfa'⟩

theorem mapME_ok_get {α β : Type} {f : α → Except RErr β} :
    ∀ {l : List α} {r : List β}, mapME f l = .ok r →
      ∀ k : Nat, r.get? k = (l.get? k).bind (fun a => (f a).toOption) := by
  intro l
  induction l with
  | nil =>
    intro r h k
    simp only [mapME, Except.ok.injEq] at h
    subst h
    simp
  | cons a t ih =>
    intro r h k
    rw [mapME] at h
    cases hb : f a with
    | error e => rw [hb] at h; cases h
    | ok b =>
      rw [hb] at h
      cases hr : mapME f t with
      | error e => rw [hr] at h; cases h
      | ok r' =>
        rw [hr] at h
        injection h with h
        subst h
        cases k with
        | zero => simp [hb, Except.toOption]
        | succ k' => simpa using ih hr k'

theorem mapME_ok_ext {α β : Type} {f : α → Except RErr β} :
    ∀ {l : List α} {r : List β}, r.length = l.length →
      (∀ k, k < l.length →
        ∃ a b, l.get? k = some a ∧ r.get? k = some b ∧ f a = .ok b) →
      mapME f l = .ok r := by
  intro l
  induction l with
  | nil =>
    intro r hlen _
    rw [List.length_nil, List.length_eq_zero] at hlen
    subst hlen
    rfl
  | cons a t ih =>
    intro r hlen h
    cases r with
    | nil => simp at hlen
    | cons b r' =>
      obtain ⟨a0, b0, ha0, hb0, hf0⟩ := h 0 (by simp)
      simp only [List.get?] at ha0 hb0
      injection ha0 with ha0
      injection hb0 with hb0
      subst ha0; subst hb0
      have hrec : mapME f t = .ok r' := by
        apply ih
        · simpa using hlen
        · intro k hk
          obtain ⟨a', b', ha', hb', hf'⟩ := h (k + 1) (by simpa using Nat.succ_lt_succ hk)
          exact ⟨a', b', by simpa using ha', by simpa using hb', hf'⟩
      rw [mapME, hf0, hrec]

/-- A loop that returns each element unchanged rebuilds the list. -/
theorem mapME_id {α : Type} {f : α → Except RErr α} :
    ∀ {l : List α}, (∀ a ∈ l, f a = .ok a) → mapME f l = .ok l := by
  intro l
  induction l with
  | nil => intro _; rfl
  | cons a t ih =>
    intro h
    rw [mapME, h a (List.mem_cons_self _ _), ih (fun x hx => h x (List.mem_cons_of_mem _ hx))]

/-! ## Deduplication -/

theorem mem_dedupAux :
    ∀ {l : List (List Value)} {seen : List (List Value)} {t : List Value},
      t ∈ dedupAux seen l → t ∈ l := by
  intro l
  induction l with
  | nil => intro seen t h; simp [dedupAux] at h
  | cons a ts ih =>
    intro seen t h
    rw [dedupAux] at h
    by_cases hm : a ∈ seen
    · rw [if_pos hm] at h
      exact List.mem_cons_of_mem _ (ih h)
    · rw [if_neg hm] at h
      rcases List.mem_cons.1 h with rfl | h'
      · exact List.mem_cons_self _ _
      · exact List.mem_cons_of_mem _ (ih h')

theorem dedupAux_not_mem_seen :
    ∀ {l seen : List (List Value)} {t : List Value},
      t ∈ dedupAux seen l → t ∉ seen := by
  intro l
  induction l with
  | nil => intro seen t h; simp [dedupAux] at h
  | cons a ts ih =>
    intro seen t h
    rw [dedupAux] at h
    by_cases hm : a ∈ seen
    · rw [if_pos hm] at h
      exact ih h
    · rw [if_neg hm] at h
      rcases List.mem_cons.1 h with rfl | h'
      · exact hm
      · intro hc
        exact ih h' (List.mem_cons_of_mem _ hc)

theorem dedupAux_nodup :
    ∀ (l seen : List (List Value)), (dedupAux seen l).Nodup := by
  intro l
  induction l with
  | nil => intro seen; simp [dedupAux]
  | cons a ts ih =>
    intro seen
    rw [dedupAux]
    by_cases hm : a ∈ seen
    · rw [if_pos hm]; exact ih seen
    · rw [if_neg hm]
      refine List.nodup_cons.2 ⟨?_, ih (a :: seen)⟩
      intro hc
      exact dedupAux_not_mem_seen hc (List.mem_cons_self _ _)

theorem dedupAux_eq_self :
    ∀ {l seen : List (List Value)}, l.Nodup → (∀ t ∈ l, t ∉ seen) →
      dedupAux seen l = l := by
  intro l
  induction l with
  | nil => intro seen _ _; rfl
  | cons a ts ih =>
    intro seen hnd hs
    rw [dedupAux, if_neg (hs a (List.mem_cons_self _ _))]
    congr 1
    apply ih (List.nodup_cons.1 hnd).2
    intro t ht
    rw [List.mem_cons, not_or]
    exact ⟨fun hc => (List.nodup_cons.1 hnd).1 (hc ▸ ht), hs t (List.mem_cons_of_mem _ ht)⟩

theorem dedupTuples_nodup (l : List (List Value)) : (dedupTuples l).Nodup :=
  dedupAux_nodup l []

theorem dedupTuples_of_nodup {l : List (List Value)} (h : l.Nodup) : dedupTuples l = l :=
  dedupAux_eq_self h (by simp)

theorem firstSeenDedup_nil : firstSeenDedup [] = [] := by
  rw [firstSeenDedup.eq_def]

theorem firstSeenDedup_cons (t : List Value) (ts : List (List Value)) :
    firstSeenDedup (t :: ts) = t :: firstSeenDedup (ts.filter (fun u => u ≠ t)) := by
  rw [firstSeenDedup.eq_def]

theorem dedupAux_eq_firstSeen :
    ∀ (l seen : List (List Value)),
      dedupAux seen l = firstSeenDedup (l.filter (fun t => decide (t ∉ seen))) := by
  intro l
  induction l with
  | nil => intro seen; rw [List.filter_nil, firstSeenDedup_nil]; rfl
  | cons a ts ih =>
    intro seen
    rw [dedupAux, List.filter_cons]
    by_cases hm : a ∈ seen
    · rw [if_pos hm]
      have hd : decide (a ∉ seen) = false := by simp [hm]
      rw [hd]
      simp only [Bool.false_eq_true, if_false]
      exact ih seen
    · rw [if_neg hm]
      have hd : decide (a ∉ seen) = true := by simp [hm]
      rw [hd]
      simp only [if_true]
      rw [firstSeenDedup_cons]
      congr 1
      rw [ih (a :: seen), List.filter_filter]
      refine congrArg firstSeenDedup (List.filter_congr ?_)
      intro t _
      by_cases h1 : t = a <;> by_cases h2 : t ∈ seen <;>
        simp [h1, h2, List.mem_cons]

theorem dedupTuples_eq_firstSeen (l : List (List Value)) :
    dedupTuples l = firstSeenDedup l := by
  rw [dedupTuples, dedupAux_eq_firstSeen]
  congr 1
  apply List.filter_eq_self.2
  intro t _
  simp

theorem mem_dedupFilterAux {p : List Value → Bool} :
    ∀ {l seen : List (List Value)} {t : List Value},
      t ∈ dedupFilterAux p seen l → t ∈ l := by
  intro l
  induction l with
  | nil => intro seen t h; simp [dedupFilterAux] at h
  | cons a ts ih =>
    intro seen t h
    rw [dedupFilterAux] at h
    by_cases hp : p a = true
    · rw [if_pos hp] at h
      by_cases hm : a ∈ seen
      · rw [if_pos hm] at h
        exact List.mem_cons_of_mem _ (ih h)
      · rw [if_neg hm] at h
        rcases List.mem_cons.1 h with rfl | h'
        · exact List.mem_cons_self _ _
        · exact List.mem_cons_of_mem _ (ih h')
    · rw [if_neg hp] at h
      exact List.mem_cons_of_mem _ (ih h)

/-! ## Store operations -/

theorem storeLookup_none_all {s : Store} {n : Str} (h : storeLookup s n = none) :
    ∀ p ∈ s, (p.1 == n) = false := by
  intro p hp
  rw [storeLookup, Option.map_eq_none'] at h
  have := List.find?_eq_none.1 h p hp
  revert this
  cases (p.1 == n) <;> simp

theorem storeInsert_of_absent {s : Store} {n : Str} {r : Relation}
    (h : storeLookup s n = none) : storeInsert s n r = s ++ [(n, r)] := by
  rw [storeInsert, if_neg]
  intro hc
  obtain ⟨p, hp, hpn⟩ := List.any_eq_true.1 hc
  rw [storeLookup_none_all h p hp] at hpn
  cases hpn

theorem storeDel_restore {s : Store} {n : Str} {r : Relation}
    (h : storeLookup s n = none) : storeDel (storeInsert s n r) n = s := by
  rw [storeInsert_of_absent h, storeDel, List.filter_append]
  have h1 : s.filter (fun p => p.1 != n) = s := by
    apply List.filter_eq_self.2
    intro p hp
    simp [bne, storeLookup_none_all h p hp]
  rw [h1]
  simp

/-! ## Python string lemmas -/

theorem mem_dropWhile {α : Type} {p : α → Bool} :
    ∀ {l : List α} {c : α}, c ∈ l.dropWhile p → c ∈ l := by
  intro l
  induction l with
  | nil => intro c h; simp [List.dropWhile] at h
  | cons a t ih =>
    intro c h
    rw [List.dropWhile_cons] at h
    by_cases ha : p a = true
    · rw [if_pos ha] at h
      exact List.mem_cons_of_mem _ (ih h)
    · rw [if_neg ha] at h
      exact h

theorem mem_pyStrip {p : Char → Bool} {l : Str} {c : Char} (h : c ∈ pyStrip p l) : c ∈ l := by
  rw [pyStrip, List.mem_reverse] at h
  have h2 := mem_dropWhile h
  rw [List.mem_reverse] at h2
  exact mem_dropWhile h2

theorem dropWhile_of_all {α : Type} {p : α → Bool} {l : List α}
    (h : ∀ c ∈ l, p c = false) : l.dropWhile p = l := by
  cases l with
  | nil => rfl
  | cons a t => rw [List.dropWhile_cons, if_neg (by rw [h a (List.mem_cons_self _ _)]; simp)]

theorem pyStrip_of_all {p : Char → Bool} {l : Str}
    (h : ∀ c ∈ l, p c = false) : pyStrip p l = l := by
  rw [pyStrip, dropWhile_of_all h, dropWhile_of_all, List.reverse_reverse]
  intro c hc
  exact h c (List.mem_reverse.1 hc)

theorem dropWhile_replicate_append {α : Type} {p : α → Bool} {c : α} (hc : p c = true) :
    ∀ (k : Nat) (rest : List α),
      (List.replicate k c ++ rest).dropWhile p = rest.dropWhile p := by
  intro k
  induction k with
  | zero => intro rest; rfl
  | succ n ih =>
    intro rest
    rw [List.replicate_succ, List.cons_append, List.dropWhile_cons, if_pos hc, ih]

theorem dropWhile_head_false {α : Type} {p : α → Bool} {l : List α}
    (h : ∀ c, l.head? = some c → p c = false) : l.dropWhile p = l := by
  cases l with
  | nil => rfl
  | cons a t => rw [List.dropWhile_cons, if_neg (by rw [h a rfl]; simp)]

/-- A strip that finds ends not in the class is the identity (ends-only). -/
theorem pyStrip_ends_id {p : Char → Bool} {l : Str}
    (h1 : ∀ c, l.head? = some c → p c = false)
    (h2 : ∀ c, l.getLast? = some c → p c = false) : pyStrip p l = l := by
  rw [pyStrip, dropWhile_head_false h1, dropWhile_head_false, List.reverse_reverse]
  intro c hc
  rw [List.head?_reverse] at hc
  exact h2 c hc

/-! ## Substring containment and splitting -/

theorem containsSub_head_not_mem {c : Char} {cs l : Str} (h : c ∉ l) :
    containsSub (c :: cs) l = false := by
  induction l with
  | nil => rfl
  | cons d t ih =>
    rw [containsSub]
    have hcd : c ≠ d := fun hc => h (hc ▸ List.mem_cons_self _ _)
    have h1 : (c :: cs).isPrefixOf (d :: t) = false := by
      rw [List.isPrefixOf]
      simp [hcd]
    rw [h1, Bool.false_or]
    exact ih (fun hc => h (List.mem_cons_of_mem _ hc))

theorem isPrefixOf_append_self {α : Type} [DecidableEq α] (a t : List α) :
    a.isPrefixOf (a ++ t) = true :=
  (isPrefixOf_ex a (a ++ t)).2 ⟨t, rfl⟩

theorem containsSub_junction {sep : Str} (hsep : sep ≠ []) (a v : Str) :
    containsSub sep (a ++ sep ++ v) = true := by
  induction a with
  | nil =>
    rw [List.nil_append]
    cases hs : sep with
    | nil => exact absurd hs hsep
    | cons c cs =>
      rw [← hs]
      have : ∃ d t, sep ++ v = d :: t := by
        rw [hs]; exact ⟨c, cs ++ v, by simp⟩
      obtain ⟨d, t, hdt⟩ := this
      rw [hdt, containsSub, ← hdt, isPrefixOf_append_self, Bool.true_or]
  | cons x xs ih =>
    simp only [List.cons_append]
    rw [containsSub, ih, Bool.or_true]

theorem isPrefixOf_cons_cons {α : Type} [DecidableEq α] (a b : α) (as bs : List α) :
    (a :: as).isPrefixOf (b :: bs) = ((a == b) && as.isPrefixOf bs) := rfl

theorem isPrefixOf_cons_neq {c0 x : Char} {cs rest : Str} (h : c0 ≠ x) :
    (c0 :: cs).isPrefixOf (x :: rest) = false := by
  rw [isPrefixOf_cons_cons]
  simp [h]

theorem containsSub_pair_not {x y : Char} {a v : Str}
    (hxa : x ∉ a) (hxv : x ∉ v) (hy : v.head? ≠ some y) :
    containsSub [x, y] (a ++ x :: v) = false := by
  induction a with
  | nil =>
    rw [List.nil_append, containsSub]
    have h1 : ([x, y]).isPrefixOf (x :: v) = false := by
      cases v with
      | nil => rw [isPrefixOf_cons_cons]; simp
      | cons w ws =>
        have hwy : y ≠ w := by
          intro hc
          exact hy (by rw [List.head?_cons, hc])
        rw [isPrefixOf_cons_cons, isPrefixOf_cons_neq hwy]
        simp
    rw [h1, Bool.false_or]
    exact containsSub_head_not_mem hxv
  | cons d ds ih =>
    simp only [List.cons_append]
    have hxd : x ≠ d := fun hc => hxa (hc ▸ List.mem_cons_self _ _)
    rw [containsSub, isPrefixOf_cons_neq hxd, Bool.false_or]
    exact ih (fun hc => hxa (List.mem_cons_of_mem _ hc))

theorem splitOnSub_nil (sep : Str) : splitOnSub sep [] = [[]] := rfl

theorem splitAux_skip {sep : Str} :
    ∀ (x rest : Str), splitAux sep (x ++ rest) x.length = splitAux sep rest 0 := by
  intro x
  induction x with
  | nil => intro rest; rfl
  | cons c x' ih => intro rest; exact ih rest

theorem splitOnSub_cons_pos {sep : Str} {c : Char} {t : Str}
    (h : sep ≠ [] ∧ sep.isPrefixOf (c :: t) = true) :
    splitOnSub sep (c :: t) = [] :: splitAux sep t (sep.length - 1) := by
  rw [splitOnSub, splitAux]
  exact dif_pos h

theorem splitOnSub_cons_neg {sep : Str} {c : Char} {t : Str}
    (h : ¬(sep ≠ [] ∧ sep.isPrefixOf (c :: t) = true)) :
    splitOnSub sep (c :: t) =
      match splitOnSub sep t with
      | [] => [[c]]
      | p :: ps => (c :: p) :: ps := by
  rw [splitOnSub, splitAux]
  exact dif_neg h

theorem splitOnSub_not_mem {c0 : Char} {cs : Str} :
    ∀ {l : Str}, c0 ∉ l → splitOnSub (c0 :: cs) l = [l] := by
  intro l
  induction l with
  | nil => intro _; exact splitOnSub_nil _
  | cons d t ih =>
    intro h
    have hd : c0 ≠ d := fun hc => h (hc ▸ List.mem_cons_self _ _)
    rw [splitOnSub_cons_neg (by
      rintro ⟨-, hpre⟩
      rw [isPrefixOf_cons_neq hd] at hpre
      cases hpre)]
    rw [ih (fun hc => h (List.mem_cons_of_mem _ hc))]

theorem splitOnSub_junction {c0 : Char} {cs : Str} {v : Str} (hv : c0 ∉ v) :
    ∀ {a : Str}, c0 ∉ a →
      splitOnSub (c0 :: cs) (a ++ (c0 :: cs) ++ v) = [a, v] := by
  intro a
  induction a with
  | nil =>
    intro _
    rw [List.nil_append, List.cons_append]
    rw [splitOnSub_cons_pos ⟨by simp, by
      rw [← List.cons_append]
      exact isPrefixOf_append_self _ _⟩]
    have hskip : splitAux (c0 :: cs) (cs ++ v) ((c0 :: cs).length - 1) = splitAux (c0 :: cs) v 0 := by
      have : (c0 :: cs).length - 1 = cs.length := by simp
      rw [this]
      exact splitAux_skip cs v
    rw [hskip, ← splitOnSub, splitOnSub_not_mem hv]
  | cons x xs ih =>
    intro ha
    have hx : c0 ≠ x := fun hc => ha (hc ▸ List.mem_cons_self _ _)
    simp only [List.cons_append]
    rw [splitOnSub_cons_neg (by
      rintro ⟨-, hpre⟩
      rw [isPrefixOf_cons_neq hx] at hpre
      cases hpre)]
    have := ih (fun hc => ha (List.mem_cons_of_mem _ hc))
    simp only [List.cons_append] at this
    rw [this]

/-! ## Condition-evaluator lemmas -/

theorem alpha_not_mem {l : Str} {d : Char} (h : ∀ c ∈ l, c.isAlphanum = true)
    (hd : d.isAlphanum = false) : d ∉ l := by
  intro hc
  have := h d hc
  rw [this] at hd
  exact Bool.noConfusion hd

theorem alpha_head_ne {v : Str} {d : Char} (hv : ∀ c ∈ v, c.isAlphanum = true)
    (hd : d.isAlphanum = false) : v.head? ≠ some d := by
  cases v with
  | nil => simp
  | cons w ws =>
    rw [List.head?_cons]
    intro hc
    injection hc with hc
    have hw := hv w (List.mem_cons_self _ _)
    subst hc
    rw [hw] at hd
    exact Bool.noConfusion hd

theorem not_mem_cond {d : Char} {a m v : Str}
    (h1 : d ∉ a) (h2 : d ∉ m) (h3 : d ∉ v) : d ∉ a ++ m ++ v := by
  intro hc
  rcases List.mem_append.1 hc with hc2 | hc2
  · rcases List.mem_append.1 hc2 with hc3 | hc3
    · exact h1 hc3
    · exact h2 hc3
  · exact h3 hc2

theorem alphaStr_strip {l : Str} (h : ∀ c ∈ l, c.isAlphanum = true) : pyStripWs l = l := by
  apply pyStrip_of_all
  intro c hc
  have hca := h c hc
  cases hs : isPySpace c
  · rfl
  · exfalso
    rw [isPySpace] at hs
    simp only [Bool.or_eq_true, beq_iff_eq] at hs
    rcases hs with ((((rfl | rfl) | rfl) | rfl) | rfl) | rfl <;> exact absurd hca (by decide)

theorem evalCondLoop_skip_not_contains {cond : Str} {A : List Str} {T : List Value}
    {op : Str} {rest : List Str} (h : containsSub op cond = false) :
    evalCondLoop cond A T (op :: rest) = evalCondLoop cond A T rest := by
  simp only [evalCondLoop, h, Bool.false_eq_true, if_false]

theorem evalCondLoop_skip_wrong_attr {cond : Str} {A : List Str} {T : List Value}
    {op : Str} {rest : List Str} {p0 p1 : Str}
    (hc : containsSub op cond = true) (hs : splitOnSub op cond = [p0, p1])
    (hn : pyStripWs p0 ∉ A) :
    evalCondLoop cond A T (op :: rest) = evalCondLoop cond A T rest := by
  simp only [evalCondLoop, hc, if_true, hs]
  rw [if_neg hn]

theorem evalCondLoop_hit {cond : Str} {A : List Str} {T : List Value}
    {op : Str} {rest : List Str} {p0 p1 : Str}
    (hc : containsSub op cond = true) (hs : splitOnSub op cond = [p0, p1])
    (hm : pyStripWs p0 ∈ A) :
    evalCondLoop cond A T (op :: rest) =
      match getVal T (A.indexOf (pyStripWs p0)) with
      | .error e => .error e
      | .ok tv => applyOp op tv (coerceLit (pyStripWs p1)) := by
  simp only [evalCondLoop, hc, if_true, hs]
  rw [if_pos hm]

theorem alpha_not_space {c : Char} (hca : c.isAlphanum = true) : isPySpace c = false := by
  cases hs : isPySpace c
  · rfl
  · exfalso
    rw [isPySpace] at hs
    simp only [Bool.or_eq_true, beq_iff_eq] at hs
    rcases hs with ((((rfl | rfl) | rfl) | rfl) | rfl) | rfl <;> exact absurd hca (by decide)

theorem evalCond_ge {a v : Str} {A : List Str} {T : List Value}
    (ha : ∀ c ∈ a, c.isAlphanum = true) (hv : ∀ c ∈ v, c.isAlphanum = true)
    (hm : a ∈ A) :
    evaluate_condition (a ++ ['>', '='] ++ v) A T = condResult ['>', '='] A T a v := by
  have hsa := alphaStr_strip ha
  have hsv := alphaStr_strip hv
  have hga : ('>') ∉ a := alpha_not_mem ha (by decide)
  have hgv : ('>') ∉ v := alpha_not_mem hv (by decide)
  rw [evaluate_condition, opsList]
  rw [evalCondLoop_hit (containsSub_junction (by simp) a v)
      (splitOnSub_junction hgv hga) (by rw [hsa]; exact hm)]
  rw [condResult, hsa, hsv]

theorem evalCond_le {a v : Str} {A : List Str} {T : List Value}
    (ha : ∀ c ∈ a, c.isAlphanum = true) (hv : ∀ c ∈ v, c.isAlphanum = true)
    (hm : a ∈ A) :
    evaluate_condition (a ++ ['<', '='] ++ v) A T = condResult ['<', '='] A T a v := by
  have hsa := alphaStr_strip ha
  have hsv := alphaStr_strip hv
  have hga : ('>') ∉ a := alpha_not_mem ha (by decide)
  have hgv : ('>') ∉ v := alpha_not_mem hv (by decide)
  have hla : ('<') ∉ a := alpha_not_mem ha (by decide)
  have hlv : ('<') ∉ v := alpha_not_mem hv (by decide)
  rw [evaluate_condition, opsList]
  rw [evalCondLoop_skip_not_contains
      (containsSub_head_not_mem (not_mem_cond hga (by decide) hgv))]
  rw [evalCondLoop_hit (containsSub_junction (by simp) a v)
      (splitOnSub_junction hlv hla) (by rw [hsa]; exact hm)]
  rw [condResult, hsa, hsv]

theorem evalCond_gt {a v : Str} {A : List Str} {T : List Value}
    (ha : ∀ c ∈ a, c.isAlphanum = true) (hv : ∀ c ∈ v, c.isAlphanum = true)
    (hm : a ∈ A) :
    evaluate_condition (a ++ ['>'] ++ v) A T = condResult ['>'] A T a v := by
  have hsa := alphaStr_strip ha
  have hsv := alphaStr_strip hv
  have hga : ('>') ∉ a := alpha_not_mem ha (by decide)
  have hgv : ('>') ∉ v := alpha_not_mem hv (by decide)
  have hla : ('<') ∉ a := alpha_not_mem ha (by decide)
  have hlv : ('<') ∉ v := alpha_not_mem hv (by decide)
  have hshape : a ++ ['>'] ++ v = a ++ '>' :: v := by simp
  rw [evaluate_condition, opsList]
  rw [evalCondLoop_skip_not_contains (by
    rw [hshape]
    exact containsSub_pair_not hga hgv (alpha_head_ne hv (by decide)))]
  rw [evalCondLoop_skip_not_contains
      (containsSub_head_not_mem (not_mem_cond hla (by decide) hlv))]
  rw [evalCondLoop_hit (containsSub_junction (by simp) a v)
      (splitOnSub_junction hgv hga) (by rw [hsa]; exact hm)]
  rw [condResult, hsa, hsv]

theorem evalCond_lt {a v : Str} {A : List Str} {T : List Value}
    (ha : ∀ c ∈ a, c.isAlphanum = true) (hv : ∀ c ∈ v, c.isAlphanum = true)
    (hm : a ∈ A) :
    evaluate_condition (a ++ ['<'] ++ v) A T = condResult ['<'] A T a v := by
  have hsa := alphaStr_strip ha
  have hsv := alphaStr_strip hv
  have hga : ('>') ∉ a := alpha_not_mem ha (by decide)
  have hgv : ('>') ∉ v := alpha_not_mem hv (by decide)
  have hla : ('<') ∉ a := alpha_not_mem ha (by decide)
  have hlv : ('<') ∉ v := alpha_not_mem hv (by decide)
  have hshape : a ++ ['<'] ++ v = a ++ '<' :: v := by simp
  rw [evaluate_condition, opsList]
  rw [evalCondLoop_skip_not_contains
      (containsSub_head_not_mem (not_mem_cond hga (by decide) hgv))]
  rw [evalCondLoop_skip_not_contains (by
    rw [hshape]
    exact containsSub_pair_not hla hlv (alpha_head_ne hv (by decide)))]
  rw [evalCondLoop_skip_not_contains
      (containsSub_head_not_mem (not_mem_cond hga (by decide) hgv))]
  rw [evalCondLoop_hit (containsSub_junction (by simp) a v)
      (splitOnSub_junction hlv hla) (by rw [hsa]; exact hm)]
  rw [condResult, hsa, hsv]

theorem evalCond_eq {a v : Str} {A : List Str} {T : List Value}
    (ha : ∀ c ∈ a, c.isAlphanum = true) (hv : ∀ c ∈ v, c.isAlphanum = true)
    (hm : a ∈ A) :
    evaluate_condition (a ++ ['='] ++ v) A T = condResult ['='] A T a v := by
  have hsa := alphaStr_strip ha
  have hsv := alphaStr_strip hv
  have hga : ('>') ∉ a := alpha_not_mem ha (by decide)
  have hgv : ('>') ∉ v := alpha_not_mem hv (by decide)
  have hla : ('<') ∉ a := alpha_not_mem ha (by decide)
  have hlv : ('<') ∉ v := alpha_not_mem hv (by decide)
  have hea : ('=') ∉ a := alpha_not_mem ha (by decide)
  have hev : ('=') ∉ v := alpha_not_mem hv (by decide)
  rw [evaluate_condition, opsList]
  rw [evalCondLoop_skip_not_contains
      (containsSub_head_not_mem (not_mem_cond hga (by decide) hgv))]
  rw [evalCondLoop_skip_not_contains
      (containsSub_head_not_mem (not_mem_cond hla (by decide) hlv))]
  rw [evalCondLoop_skip_not_contains
      (containsSub_head_not_mem (not_mem_cond hga (by decide) hgv))]
  rw [evalCondLoop_skip_not_contains
      (containsSub_head_not_mem (not_mem_cond hla (by decide) hlv))]
  rw [evalCondLoop_hit (containsSub_junction (by simp) a v)
      (splitOnSub_junction hev hea) (by rw [hsa]; exact hm)]
  rw [condResult, hsa, hsv]

theorem evalCond_ne {a v : Str} {A : List Str} {T : List Value}
    (ha : ∀ c ∈ a, c.isAlphanum = true) (hv : ∀ c ∈ v, c.isAlphanum = true)
    (hm : a ∈ A) (hnA : (a ++ ['!']) ∉ A) :
    evaluate_condition (a ++ ['!', '='] ++ v) A T = condResult ['!', '='] A T a v := by
  have hsa := alphaStr_strip ha
  have hsv := alphaStr_strip hv
  have hga : ('>') ∉ a := alpha_not_mem ha (by decide)
  have hgv : ('>') ∉ v := alpha_not_mem hv (by decide)
  have hla : ('<') ∉ a := alpha_not_mem ha (by decide)
  have hlv : ('<') ∉ v := alpha_not_mem hv (by decide)
  have hea : ('=') ∉ a := alpha_not_mem ha (by decide)
  have hev : ('=') ∉ v := alpha_not_mem hv (by decide)
  have hba : ('!') ∉ a := alpha_not_mem ha (by decide)
  have hbv : ('!') ∉ v := alpha_not_mem hv (by decide)
  have hshape : a ++ ['!', '='] ++ v = (a ++ ['!']) ++ ['='] ++ v := by simp
  have hstrip2 : pyStripWs (a ++ ['!']) = a ++ ['!'] := by
    apply pyStrip_of_all
    intro c hc
    rcases List.mem_append.1 hc with hc2 | hc2
    · exact alpha_not_space (ha c hc2)
    · rcases List.mem_singleton.1 hc2 with rfl
      decide
  rw [evaluate_condition, opsList]
  rw [evalCondLoop_skip_not_contains
      (containsSub_head_not_mem (not_mem_cond hga (by decide) hgv))]
  rw [evalCondLoop_skip_not_contains
      (containsSub_head_not_mem (not_mem_cond hla (by decide) hlv))]
  rw [evalCondLoop_skip_not_contains
      (containsSub_head_not_mem (not_mem_cond hga (by decide) hgv))]
  rw [evalCondLoop_skip_not_contains
      (containsSub_head_not_mem (not_mem_cond hla (by decide) hlv))]
  rw [evalCondLoop_skip_wrong_attr
      (by rw [hshape]; exact containsSub_junction (by simp) (a ++ ['!']) v)
      (by
        rw [hshape]
        exact splitOnSub_junction hev (by
          intro hc
          rcases List.mem_append.1 hc with hc2 | hc2
          · exact hea hc2
          · rcases List.mem_singleton.1 hc2 with h'
            cases h'))
      (by rw [hstrip2]; exact hnA)]
  rw [evalCondLoop_hit (containsSub_junction (by simp) a v)
      (splitOnSub_junction hbv hba) (by rw [hsa]; exact hm)]
  rw [condResult, hsa, hsv]

/-! ## Matcher lemmas for the query grammar -/

theorem mem_of_mem_drop {α : Type} {l : List α} {n : Nat} {c : α}
    (h : c ∈ l.drop n) : c ∈ l :=
  List.drop_subset n l h

theorem mem_of_mem_take {α : Type} {l : List α} {n : Nat} {c : α}
    (h : c ∈ l.take n) : c ∈ l :=
  List.take_subset n l h

/-- Any literal of a successfully matched pattern occurs in the subject. -/
theorem reMatch_lit_char :
    ∀ (ps : List RElem) (s : Str) (caps : List Str) (cs : Str) (c : Char),
      reMatch ps s = some caps → RElem.lit cs ∈ ps → c ∈ cs → c ∈ s := by
  intro ps
  induction ps with
  | nil => intro s caps cs c _ hmem _; simp at hmem
  | cons e ps ih =>
    intro s caps cs c h hmem hc
    rcases List.mem_cons.1 hmem with rfl | hmem'
    · simp only [reMatch] at h
      by_cases hpre : cs.isPrefixOf s = true
      · obtain ⟨t, rfl⟩ := (isPrefixOf_ex cs s).1 hpre
        exact List.mem_append.2 (Or.inl hc)
      · rw [if_neg hpre] at h
        exact absurd h (by simp)
    · cases e with
      | lit cs' =>
        simp only [reMatch] at h
        by_cases hpre : cs'.isPrefixOf s = true
        · rw [if_pos hpre] at h
          exact mem_of_mem_drop (ih _ _ _ _ h hmem' hc)
        · rw [if_neg hpre] at h
          exact absurd h (by simp)
      | star cl =>
        simp only [reMatch] at h
        obtain ⟨i, _, hf⟩ := findSome?_ex h
        exact mem_of_mem_drop (ih _ _ _ _ hf hmem' hc)
      | plus cl =>
        simp only [reMatch] at h
        obtain ⟨i, _, hf⟩ := findSome?_ex h
        exact mem_of_mem_drop (ih _ _ _ _ hf hmem' hc)
      | capPlus cl =>
        simp only [reMatch] at h
        obtain ⟨i, _, hf⟩ := findSome?_ex h
        cases hr : reMatch ps (s.drop i) with
        | none => rw [hr] at hf; simp at hf
        | some cs2 => exact mem_of_mem_drop (ih _ _ _ _ hr hmem' hc)
      | capLazy cl =>
        simp only [reMatch] at h
        obtain ⟨i, _, hf⟩ := findSome?_ex h
        cases hr : reMatch ps (s.drop i) with
        | none => rw [hr] at hf; simp at hf
        | some cs2 => exact mem_of_mem_drop (ih _ _ _ _ hr hmem' hc)

/-- A successful match of a literal-headed pattern means the subject starts
with that literal. -/
theorem reMatch_head_lit {cs : Str} {ps : List RElem} {s : Str} {caps : List Str}
    (h : reMatch (.lit cs :: ps) s = some caps) : cs.isPrefixOf s = true := by
  simp only [reMatch] at h
  by_cases hpre : cs.isPrefixOf s = true
  · exact hpre
  · rw [if_neg hpre] at h
    exact absurd h (by simp)

theorem two_prefixes_same_head {c d : Char} {cs ds s : Str}
    (h1 : (c :: cs).isPrefixOf s = true) (h2 : (d :: ds).isPrefixOf s = true) : c = d := by
  obtain ⟨t1, ht1⟩ := (isPrefixOf_ex _ _).1 h1
  obtain ⟨t2, ht2⟩ := (isPrefixOf_ex _ _).1 h2
  rw [ht1, List.cons_append, List.cons_append] at ht2
  injection ht2

/-- The nested select/project patterns require a literal `(` in the subject. -/
theorem projectPat_needs_paren {s : Str} {caps : List Str}
    (h : reMatch projectPat s = some caps) : '(' ∈ s :=
  reMatch_lit_char projectPat s caps ['('] '(' h (by decide) (by decide)

theorem selectPat_needs_paren {s : Str} {caps : List Str}
    (h : reMatch selectPat s = some caps) : '(' ∈ s :=
  reMatch_lit_char selectPat s caps ['('] '(' h (by decide) (by decide)

/-! ## Projection lemmas -/

theorem projIndices_of_sub {schema : List Str} :
    ∀ {attrs : List Str}, (∀ a ∈ attrs, a ∈ schema) →
      projIndices schema attrs = attrs.map (fun a => schema.indexOf a) := by
  intro attrs
  induction attrs with
  | nil => intro _; rfl
  | cons a t ih =>
    intro h
    have hmem := h a (List.mem_cons_self _ _)
    simp only [projIndices, List.filterMap_cons, if_pos hmem, List.map_cons]
    rw [List.cons.injEq]
    refine ⟨rfl, ?_⟩
    exact ih (fun x hx => h x (List.mem_cons_of_mem _ hx))

/-- `get?` at the first index of a member recovers the member (stated over
`Str` so the `BEq` instance matches the one used by the definitions). -/
theorem str_indexOf_get? : ∀ {l : List Str} {a : Str}, a ∈ l → l.get? (l.indexOf a) = some a := by
  intro l
  induction l with
  | nil => intro a h; cases h
  | cons b t ih =>
    intro a h
    rw [List.indexOf, List.findIdx_cons]
    by_cases hba : b = a
    · subst hba
      simp
    · have hbeq : (b == a) = false := by simp [hba]
      rw [hbeq, Bool.cond_false, List.get?_cons_succ, ← List.indexOf]
      rcases List.mem_cons.1 h with rfl | h'
      · exact absurd rfl hba
      · exact ih h'

theorem getVal_ok_iff {t : List Value} {i : Nat} {v : Value} :
    getVal t i = .ok v ↔ t.get? i = some v := by
  rw [getVal]
  cases h : t.get? i <;> simp

/-- Projecting a projected tuple onto the same attribute list is the
identity: each requested attribute resolves to its first occurrence, which
already carries the same source value. -/
theorem second_proj_id {schema attrs : List Str} {t r : List Value}
    (hsub : ∀ a ∈ attrs, a ∈ schema)
    (h : mapME (getVal t) (projIndices schema attrs) = .ok r) :
    mapME (getVal r) (projIndices attrs attrs) = .ok r := by
  have hidx : projIndices schema attrs = attrs.map (fun a => schema.indexOf a) :=
    projIndices_of_sub hsub
  have hidx2 : projIndices attrs attrs = attrs.map (fun a => attrs.indexOf a) :=
    projIndices_of_sub (fun a ha => ha)
  rw [hidx] at h
  have hlen : r.length = attrs.length := by
    rw [mapME_ok_length h, List.length_map]
  rw [hidx2]
  apply mapME_ok_ext
  · rw [hlen, List.length_map]
  · intro k hk
    rw [List.length_map] at hk
    have hak : attrs.get? k = some (attrs.get ⟨k, hk⟩) := List.get?_eq_get hk
    set ak := attrs.get ⟨k, hk⟩ with hak_def
    have hmem : ak ∈ attrs := List.get_mem _ _ _
    have hj : attrs.get? (attrs.indexOf ak) = some ak := str_indexOf_get? hmem
    have hget := mapME_ok_get h
    have hrk : r.get? k = (getVal t (schema.indexOf ak)).toOption := by
      rw [hget k, List.get?_map, hak]
      rfl
    have hrj : r.get? (attrs.indexOf ak) = (getVal t (schema.indexOf ak)).toOption := by
      rw [hget (attrs.indexOf ak), List.get?_map, hj]
      rfl
    have hkr : k < r.length := by rw [hlen]; exact hk
    have hb : r.get? k = some (r.get ⟨k, hkr⟩) := List.get?_eq_get hkr
    refine ⟨attrs.indexOf ak, r.get ⟨k, hkr⟩, ?_, hb, ?_⟩
    · rw [List.get?_map, hak]
      rfl
    · rw [getVal_ok_iff, hrj, ← hrk, hb]

/-- A successful projection projected again onto the same attributes is
unchanged. -/
theorem project_rel_ok_of_sub {rel : Relation} {attrs : List Str} {R1 : Relation}
    (hsub : ∀ a ∈ attrs, a ∈ rel.attributes)
    (h : project_rel rel attrs = .ok R1) :
    project_rel R1 attrs = .ok R1 := by
  rw [project_rel] at h
  cases hm : mapME (fun t => mapME (getVal t) (projIndices rel.attributes attrs)) rel.tuples with
  | error e => rw [hm] at h; cases h
  | ok projected =>
    rw [hm] at h
    injection h with h
    subst h
    rw [project_rel]
    have hid : mapME (fun r => mapME (getVal r) (projIndices attrs attrs)) (dedupTuples projected) =
        .ok (dedupTuples projected) := by
      apply mapME_id
      intro r hr
      obtain ⟨t, _, hft⟩ := mapME_ok_mem hm r (mem_dedupAux hr)
      exact second_proj_id hsub hft
    rw [hid]
    show Except.ok (⟨attrs, dedupTuples (dedupTuples projected)⟩ : Relation) =
        Except.ok (⟨attrs, dedupTuples projected⟩ : Relation)
    rw [dedupTuples_of_nodup (dedupTuples_nodup projected)]

/-- A successful projection with every requested attribute present satisfies
the arity invariant. -/
theorem project_rel_inv {rel : Relation} {attrs : List Str} {R1 : Relation}
    (h : project_rel rel attrs = .ok R1)
    (hsub : ∀ a ∈ attrs, a ∈ rel.attributes) : relInv R1 := by
  rw [project_rel] at h
  cases hm : mapME (fun t => mapME (getVal t) (projIndices rel.attributes attrs)) rel.tuples with
  | error e => rw [hm] at h; cases h
  | ok projected =>
    rw [hm] at h
    injection h with h
    subst h
    intro r hr
    obtain ⟨t, _, hft⟩ := mapME_ok_mem hm r (mem_dedupAux hr)
    have := mapME_ok_length hft
    rw [this, projIndices_of_sub hsub, List.length_map]

/-! ## Arity-invariant lemmas for the operators -/

theorem select_rel_inv {rel : Relation} {cond : Str} {r : Relation}
    (h : select_rel rel cond = .ok r) (hinv : relInv rel) : relInv r := by
  rw [select_rel] at h
  cases hf : filterME (fun t => evaluate_condition cond rel.attributes t) rel.tuples with
  | error e => rw [hf] at h; cases h
  | ok ts =>
    rw [hf] at h
    injection h with h
    subst h
    intro t ht
    exact hinv t (filterME_ok_sub hf t ht)

theorem union_rel_inv {r1 r2 r : Relation} (h : union_rel r1 r2 = some r)
    (h1 : relInv r1) (h2 : relInv r2) : relInv r := by
  rw [union_rel] at h
  by_cases he : r1.attributes = r2.attributes
  · rw [if_pos he] at h
    injection h with h
    subst h
    intro t ht
    rcases List.mem_append.1 (mem_dedupAux ht) with ht' | ht'
    · exact h1 t ht'
    · rw [h2 t ht', he]
  · rw [if_neg he] at h
    cases h

theorem intersection_rel_inv {r1 r2 r : Relation} (h : intersection_rel r1 r2 = some r)
    (h1 : relInv r1) : relInv r := by
  rw [intersection_rel] at h
  by_cases he : r1.attributes = r2.attributes
  · rw [if_pos he] at h
    injection h with h
    subst h
    intro t ht
    exact h1 t (mem_dedupFilterAux ht)
  · rw [if_neg he] at h
    cases h

theorem difference_rel_inv {r1 r2 r : Relation} (h : difference_rel r1 r2 = some r)
    (h1 : relInv r1) : relInv r := by
  rw [difference_rel] at h
  by_cases he : r1.attributes = r2.attributes
  · rw [if_pos he] at h
    injection h with h
    subst h
    intro t ht
    exact h1 t (mem_dedupFilterAux ht)
  · rw [if_neg he] at h
    cases h

/-! ## Join lemmas -/

theorem extraVals_ok_length {attrs1 : List Str} {t2 : List Value} :
    ∀ {rest : List Str} {i : Nat} {out : List Value},
      extraVals attrs1 t2 i rest = .ok out →
      out.length = (rest.filter (fun a => decide (a ∉ attrs1))).length := by
  intro rest
  induction rest with
  | nil =>
    intro i out h
    injection h with h
    subst h
    rfl
  | cons a as ih =>
    intro i out h
    rw [extraVals] at h
    rw [List.filter_cons]
    by_cases hm : a ∈ attrs1
    · rw [if_pos hm] at h
      have : (decide (a ∉ attrs1)) = false := by simp [hm]
      rw [this]
      simp only [Bool.false_eq_true, if_false]
      exact ih h
    · rw [if_neg hm] at h
      have : (decide (a ∉ attrs1)) = true := by simp [hm]
      rw [this]
      simp only [if_true]
      cases hg : getVal t2 i with
      | error e => rw [hg] at h; cases h
      | ok v =>
        rw [hg] at h
        cases hr : extraVals attrs1 t2 (i + 1) as with
        | error e => rw [hr] at h; cases h
        | ok vs =>
          rw [hr] at h
          injection h with h
          subst h
          rw [List.length_cons, ih hr, List.length_cons]

theorem combineTuple_ok_length {r1 r2 : Relation} {t1 t2 c : List Value}
    (h : combineTuple r1 r2 t1 t2 = .ok c) :
    c.length = t1.length + (r2.attributes.filter (fun a => decide (a ∉ r1.attributes))).length := by
  rw [combineTuple] at h
  cases he : extraVals r1.attributes t2 0 r2.attributes with
  | error e => rw [he] at h; cases h
  | ok extra =>
    rw [he] at h
    injection h with h
    subst h
    rw [List.length_append, extraVals_ok_length he]

/-- With a duplicate-free right schema, the result-attribute fold appends
exactly the right-hand attributes not already on the left. -/
theorem join_attrs_fold {attrs2 : List Str} (hnd : attrs2.Nodup) :
    ∀ (acc0 : List Str),
      attrs2.foldl (fun acc a => if a ∈ acc then acc else acc ++ [a]) acc0 =
        acc0 ++ attrs2.filter (fun a => decide (a ∉ acc0)) := by
  induction attrs2 with
  | nil => intro acc0; simp
  | cons a as ih =>
    intro acc0
    have hnd' : as.Nodup := (List.nodup_cons.1 hnd).2
    have hna : a ∉ as := (List.nodup_cons.1 hnd).1
    rw [List.foldl_cons, List.filter_cons]
    by_cases hm : a ∈ acc0
    · rw [if_pos hm]
      have : (decide (a ∉ acc0)) = false := by simp [hm]
      rw [this]
      simp only [Bool.false_eq_true, if_false]
      exact (ih hnd') acc0
    · rw [if_neg hm]
      have : (decide (a ∉ acc0)) = true := by simp [hm]
      rw [this]
      simp only [if_true]
      rw [(ih hnd') (acc0 ++ [a]), List.append_assoc, List.singleton_append]
      refine congrArg (fun l => acc0 ++ l) (congrArg (fun l => a :: l) (List.filter_congr ?_))
      intro x hx
      have hxa : x ≠ a := fun hc => hna (hc ▸ hx)
      by_cases hx0 : x ∈ acc0 <;> simp [hx0, hxa, List.mem_append]

theorem joinInner_inv {r1 r2 : Relation} {common : List Str} {t1 : List Value} {n : Nat}
    (hP : ∀ t2 c, combineTuple r1 r2 t1 t2 = .ok c → c.length = n) :
    ∀ {ts2 acc out : List (List Value)},
      (∀ x ∈ acc, x.length = n) → joinInner r1 r2 common t1 acc ts2 = .ok out →
      ∀ x ∈ out, x.length = n := by
  intro ts2
  induction ts2 with
  | nil =>
    intro acc out hacc h
    injection h with h
    subst h
    exact hacc
  | cons t2 ts ih =>
    intro acc out hacc h
    rw [joinInner] at h
    cases hc : joinCheck r1 r2 common t1 t2 with
    | error e => rw [hc] at h; cases h
    | ok b =>
      rw [hc] at h
      cases b with
      | true =>
        cases hcb : combineTuple r1 r2 t1 t2 with
        | error e => rw [hcb] at h; cases h
        | ok c =>
          rw [hcb] at h
          refine ih ?_ h
          intro x hx
          rcases List.mem_append.1 hx with hx' | hx'
          · exact hacc x hx'
          · rcases List.mem_singleton.1 hx' with rfl
            exact hP t2 _ hcb
      | false => exact ih hacc h

theorem joinOuter_inv {r1 r2 : Relation} {common : List Str} {n : Nat}
    (hn : ∀ t1 ∈ r1.tuples, ∀ t2 c, combineTuple r1 r2 t1 t2 = .ok c → c.length = n) :
    ∀ {ts1 : List (List Value)} {acc out : List (List Value)},
      (∀ x ∈ acc, x.length = n) → (∀ t ∈ ts1, t ∈ r1.tuples) →
      joinOuter r1 r2 common acc ts1 = .ok out → ∀ x ∈ out, x.length = n := by
  intro ts1
  induction ts1 with
  | nil =>
    intro acc out hacc _ h
    injection h with h
    subst h
    exact hacc
  | cons t1 ts ih =>
    intro acc out hacc hts h
    rw [joinOuter] at h
    cases hi : joinInner r1 r2 common t1 acc r2.tuples with
    | error e => rw [hi] at h; cases h
    | ok acc2 =>
      rw [hi] at h
      refine ih ?_ (fun t ht => hts t (List.mem_cons_of_mem _ ht)) h
      exact joinInner_inv (hn t1 (hts t1 (List.mem_cons_self _ _))) hacc hi

theorem join_rel_inv {r1 r2 r : Relation} (h : join_rel r1 r2 = .ok r)
    (h1 : relInv r1) (h2 : relInv r2) (hnd : r2.attributes.Nodup) : relInv r := by
  unfold join_rel at h
  simp only [] at h
  split at h
  next e heq => cases h
  next tss heq =>
    injection h with h
    subst h
    intro t ht
    have hn : ∀ t1 ∈ r1.tuples, ∀ t2 c, combineTuple r1 r2 t1 t2 = .ok c →
        c.length = r1.attributes.length +
          (r2.attributes.filter (fun a => decide (a ∉ r1.attributes))).length := by
      intro t1 ht1 t2 c hc
      rw [combineTuple_ok_length hc, h1 t1 ht1]
    have hlen := joinOuter_inv hn (by simp) (fun t' ht' => ht') heq t ht
    rw [relInv] at *
    show t.length = (r2.attributes.foldl
      (fun acc a => if a ∈ acc then acc else acc ++ [a]) r1.attributes).length
    rw [join_attrs_fold hnd, List.length_append, hlen]

/-! ## Definition-parser lemma -/

theorem parseTupleLines_length {body : Str} {k : Nat}
    (h : ∀ line ∈ splitOnSub ['\n'] body,
      pyStripWs line ≠ [] → (pyStripWs line).head? ≠ some '#' →
      (splitOnSub [','] (pyStripWs line)).length = k) :
    ∀ t ∈ parseTupleLines body, t.length = k := by
  intro t ht
  rw [parseTupleLines] at ht
  obtain ⟨line, hline, hsl⟩ := List.mem_filterMap.1 ht
  simp only [] at hsl
  by_cases h1 : pyStripWs line = []
  · rw [if_pos h1] at hsl; cases hsl
  · rw [if_neg h1] at hsl
    by_cases h2 : (pyStripWs line).head? = some '#'
    · rw [if_pos h2] at hsl; cases hsl
    · rw [if_neg h2] at hsl
      injection hsl with hsl
      subst hsl
      rw [List.length_map]
      exact h line hline h1 h2

/-! ## Executor-level lemmas -/

theorem relPair_no_match {kw : Str} {c : Char} {cs : Str} (hkw : kw = c :: cs)
    {q' : Str} {d : Char} {ds : Str} (hpre : (d :: ds).isPrefixOf q' = true)
    (hne : c ≠ d) : reMatch (relPairPat kw) q' = none := by
  cases hm : reMatch (relPairPat kw) q' with
  | none => rfl
  | some caps =>
    exfalso
    have hlit : kw.isPrefixOf q' = true := reMatch_head_lit hm
    rw [hkw] at hlit
    exact hne (two_prefixes_same_head hlit hpre)

theorem parse_binary_none {store : Store} {q' : Str} {d : Char} {ds : Str}
    (hpre : (d :: ds).isPrefixOf q' = true)
    (hj : 'j' ≠ d) (hu : 'u' ≠ d) (hi : 'i' ≠ d) (hd : 'd' ≠ d) :
    parse_binary store q' = .ok none := by
  rw [parse_binary,
    relPair_no_match rfl hpre hj, relPair_no_match rfl hpre hu,
    relPair_no_match rfl hpre hi, relPair_no_match rfl hpre hd]
  rfl

theorem parse_binary_ok_of_no_join {store : Store} {q' : Str}
    (hj : caps2 (reMatch (relPairPat ('j' :: 'o' :: 'i' :: 'n' :: [])) q') = none) :
    ∃ v, parse_binary store q' = .ok v := by
  cases hu : caps2 (reMatch (relPairPat ('u' :: 'n' :: 'i' :: 'o' :: 'n' :: [])) q') with
  | some pr =>
    obtain ⟨a, b⟩ := pr
    exact ⟨union_operation store a b, by rw [parse_binary, hj, hu]⟩
  | none =>
    cases hi : caps2 (reMatch (relPairPat
        ('i' :: 'n' :: 't' :: 'e' :: 'r' :: 's' :: 'e' :: 'c' :: 't' :: 'i' :: 'o' :: 'n' :: [])) q') with
    | some pr =>
      obtain ⟨a, b⟩ := pr
      exact ⟨intersection_operation store a b, by rw [parse_binary, hj, hu, hi]⟩
    | none =>
      cases hd : caps2 (reMatch (relPairPat
          ('d' :: 'i' :: 'f' :: 'f' :: 'e' :: 'r' :: 'e' :: 'n' :: 'c' :: 'e' :: [])) q') with
      | some pr =>
        obtain ⟨a, b⟩ := pr
        exact ⟨difference_operation store a b, by rw [parse_binary, hj, hu, hi, hd]⟩
      | none => exact ⟨none, by rw [parse_binary, hj, hu, hi, hd]⟩

/-! ## Cross-type comparison dispatch -/

theorem applyOp_eq_mismatch {tv lv : Value} (h : sameType tv lv = false) :
    applyOp ['='] tv lv = .ok false := by
  cases tv <;> cases lv <;> simp [sameType] at h <;> simp [applyOp, valEq]

theorem applyOp_ne_mismatch {tv lv : Value} (h : sameType tv lv = false) :
    applyOp ['!', '='] tv lv = .ok true := by
  cases tv <;> cases lv <;> simp [sameType] at h <;> simp [applyOp, valEq]

theorem applyOp_gt_mismatch {tv lv : Value} (h : sameType tv lv = false) :
    applyOp ['>'] tv lv = .error .typeError := by
  cases tv <;> cases lv <;> simp [sameType] at h <;> simp [applyOp, valGt]

theorem applyOp_lt_mismatch {tv lv : Value} (h : sameType tv lv = false) :
    applyOp ['<'] tv lv = .error .typeError := by
  cases tv <;> cases lv <;> simp [sameType] at h <;> simp [applyOp, valLt]

theorem applyOp_ge_mismatch {tv lv : Value} (h : sameType tv lv = false) :
    applyOp ['>', '='] tv lv = .error .typeError := by
  cases tv <;> cases lv <;> simp [sameType] at h <;> simp [applyOp, valGe]

theorem applyOp_le_mismatch {tv lv : Value} (h : sameType tv lv = false) :
    applyOp ['<', '='] tv lv = .error .typeError := by
  cases tv <;> cases lv <;> simp [sameType] at h <;> simp [applyOp, valLe]

/-! # Claims -/

/-- C1 counterexample: project the stored relation `R(a) = {(1)}` onto
`[a, b]` with `b` absent from the schema.  The result keeps schema `[a, b]`
(two names) but its tuple has one value, so the arity invariant the claim
asserts for every core-operation result fails. -/
theorem c1_counterexample :
    project_operation [(['R'], ⟨[['a']], [[Value.int 1]]⟩)] ['R'] [['a'], ['b']] =
      .ok (some ⟨[['a'], ['b']], [[Value.int 1]]⟩) ∧
    ¬ relInv ⟨[['a'], ['b']], [[Value.int 1]]⟩ := by
  constructor
  · decide
  · decide

/-- C1 (amended): the arity invariant is preserved by select, union,
intersection, difference, by join when the right schema is duplicate-free, and
by project when every requested attribute occurs in the source schema; the
definition parser yields tuples of schema arity exactly when each kept line
splits into that many comma-separated values.  (Project with an unknown
attribute and tuple lines of the wrong width violate it — see the
counterexample.) -/
theorem c1_invariant_amended :
    (∀ (rel : Relation) (cond : Str) (r : Relation),
      select_rel rel cond = .ok r → relInv rel → relInv r) ∧
    (∀ r1 r2 r : Relation, union_rel r1 r2 = some r → relInv r1 → relInv r2 → relInv r) ∧
    (∀ r1 r2 r : Relation, intersection_rel r1 r2 = some r → relInv r1 → relInv r) ∧
    (∀ r1 r2 r : Relation, difference_rel r1 r2 = some r → relInv r1 → relInv r) ∧
    (∀ (rel : Relation) (attrs : List Str) (r : Relation),
      project_rel rel attrs = .ok r → (∀ a ∈ attrs, a ∈ rel.attributes) → relInv r) ∧
    (∀ r1 r2 r : Relation, join_rel r1 r2 = .ok r → relInv r1 → relInv r2 →
      r2.attributes.Nodup → relInv r) ∧
    (∀ (body : Str) (k : Nat),
      (∀ line ∈ splitOnSub ['\n'] body,
        pyStripWs line ≠ [] → (pyStripWs line).head? ≠ some '#' →
        (splitOnSub [','] (pyStripWs line)).length = k) →
      ∀ t ∈ parseTupleLines body, t.length = k) :=
  ⟨fun _ _ _ h hinv => select_rel_inv h hinv,
   fun _ _ _ h h1 h2 => union_rel_inv h h1 h2,
   fun _ _ _ h h1 => intersection_rel_inv h h1,
   fun _ _ _ h h1 => difference_rel_inv h h1,
   fun _ _ _ h hsub => project_rel_inv h hsub,
   fun _ _ _ h h1 h2 hnd => join_rel_inv h h1 h2 hnd,
   fun _ _ h => parseTupleLines_length h⟩

/-- Witness for C1: the project clause applied to `R(a, b)` projected onto
`[a]`, an attribute present in the schema. -/
theorem c1_invariant_witness :
    project_rel ⟨[['a'], ['b']], [[Value.int 1, Value.int 2]]⟩ [['a']] =
      .ok ⟨[['a']], [[Value.int 1]]⟩ ∧
    (∀ a ∈ [['a']], a ∈ ([['a'], ['b']] : List Str)) ∧
    relInv ⟨[['a']], [[Value.int 1]]⟩ := by
  refine ⟨by decide, by decide, ?_⟩
  exact c1_invariant_amended.2.2.2.2.1 ⟨[['a'], ['b']], [[Value.int 1, Value.int 2]]⟩ [['a']]
    ⟨[['a']], [[Value.int 1]]⟩ (by decide) (by decide)

/-- C4 counterexample: when a relation named `temp_result` already exists in
the store, `execute_on_result` overwrites it with the staged intermediate
result and then deletes it, so the store after the call differs from the store
before it. -/
theorem c4_counterexample :
    execute_on_result [(tempName, ⟨[['z']], []⟩)] (some ⟨[['a']], [[Value.int 1]]⟩)
        (fun s => project_operation s tempName [['a']]) =
      (.ok (some ⟨[['a']], [[Value.int 1]]⟩), ([] : Store)) ∧
    ([] : Store) ≠ [(tempName, ⟨[['z']], []⟩)] := by
  constructor
  · decide
  · decide

/-- C4 (amended): if no relation named `temp_result` exists before the call
and the staged operation returns normally, `execute_on_result` returns the
store to exactly its pre-call state.  (A pre-existing `temp_result` entry is
destroyed, and on an exception the staged entry survives — see the
counterexample.) -/
theorem c4_store_restore_amended {store : Store} {r : Relation}
    {op : Store → Except RErr (Option Relation)} {v : Option Relation}
    (habs : storeLookup store tempName = none)
    (hok : op (storeInsert store tempName r) = .ok v) :
    execute_on_result store (some r) op = (.ok v, store) := by
  show (match op (storeInsert store tempName r) with
    | .ok w => ((.ok w : Except RErr (Option Relation)),
        storeDel (storeInsert store tempName r) tempName)
    | .error e => (.error e, storeInsert store tempName r)) = (.ok v, store)
  rw [hok]
  show ((.ok v : Except RErr (Option Relation)),
      storeDel (storeInsert store tempName r) tempName) = (.ok v, store)
  rw [storeDel_restore habs]

/-- Witness for C4: a store holding only `A`, staging a one-tuple relation and
projecting it. -/
theorem c4_witness :
    storeLookup [(['A'], ⟨[['a']], []⟩)] tempName = none ∧
    (fun s => project_operation s tempName [['a']])
        (storeInsert [(['A'], ⟨[['a']], []⟩)] tempName ⟨[['a']], [[Value.int 1]]⟩) =
      .ok (some ⟨[['a']], [[Value.int 1]]⟩) ∧
    execute_on_result [(['A'], ⟨[['a']], []⟩)] (some ⟨[['a']], [[Value.int 1]]⟩)
        (fun s => project_operation s tempName [['a']]) =
      (.ok (some ⟨[['a']], [[Value.int 1]]⟩), [(['A'], ⟨[['a']], []⟩)]) :=
  ⟨by decide, by decide, c4_store_restore_amended (by decide) (by decide)⟩

/-- C7: with both operands present in the store, union fails (returns the
failure value) exactly when the attribute sequences differ, and on identical
schemas returns that schema with the first-seen deduplicated concatenation of
the two tuple lists. -/
theorem c7_union_contract {store : Store} {n1 n2 : Str} {r1 r2 : Relation}
    (h1 : storeLookup store n1 = some r1) (h2 : storeLookup store n2 = some r2) :
    (union_operation store n1 n2 = none ↔ r1.attributes ≠ r2.attributes) ∧
    (r1.attributes = r2.attributes →
      union_operation store n1 n2 =
        some ⟨r1.attributes, firstSeenDedup (r1.tuples ++ r2.tuples)⟩) := by
  have hu : union_operation store n1 n2 = union_rel r1 r2 := by
    rw [union_operation, h1, h2]
  rw [hu]
  constructor
  · constructor
    · intro h he
      rw [union_rel, if_pos he] at h
      cases h
    · intro hne
      rw [union_rel, if_neg hne]
  · intro he
    rw [union_rel, if_pos he, dedupTuples_eq_firstSeen]

/-- Witness for C7: two stored relations over schema `[a]` with overlapping
tuples. -/
theorem c7_witness :
    storeLookup [(['A'], ⟨[['a']], [[Value.int 1], [Value.int 1], [Value.int 2]]⟩),
        (['B'], ⟨[['a']], [[Value.int 2], [Value.int 3]]⟩)] ['A'] =
      some ⟨[['a']], [[Value.int 1], [Value.int 1], [Value.int 2]]⟩ ∧
    storeLookup [(['A'], ⟨[['a']], [[Value.int 1], [Value.int 1], [Value.int 2]]⟩),
        (['B'], ⟨[['a']], [[Value.int 2], [Value.int 3]]⟩)] ['B'] =
      some ⟨[['a']], [[Value.int 2], [Value.int 3]]⟩ ∧
    ((union_operation [(['A'], ⟨[['a']], [[Value.int 1], [Value.int 1], [Value.int 2]]⟩),
          (['B'], ⟨[['a']], [[Value.int 2], [Value.int 3]]⟩)] ['A'] ['B'] = none ↔
        ([['a']] : List Str) ≠ [['a']]) ∧
      (([['a']] : List Str) = [['a']] →
        union_operation [(['A'], ⟨[['a']], [[Value.int 1], [Value.int 1], [Value.int 2]]⟩),
            (['B'], ⟨[['a']], [[Value.int 2], [Value.int 3]]⟩)] ['A'] ['B'] =
          some ⟨[['a']], firstSeenDedup ([[Value.int 1], [Value.int 1], [Value.int 2]] ++
            [[Value.int 2], [Value.int 3]])⟩)) := by
  refine ⟨by decide, by decide, ?_⟩
  exact @c7_union_contract
    [(['A'], ⟨[['a']], [[Value.int 1], [Value.int 1], [Value.int 2]]⟩),
     (['B'], ⟨[['a']], [[Value.int 2], [Value.int 3]]⟩)]
    ['A'] ['B']
    ⟨[['a']], [[Value.int 1], [Value.int 1], [Value.int 2]]⟩
    ⟨[['a']], [[Value.int 2], [Value.int 3]]⟩
    (by decide) (by decide)

/-- C8: projection is idempotent on any attribute list drawn from the source
schema — projecting the result of a projection onto the same attributes
(propagating an exception if the first projection raised) gives exactly the
first projection's result. -/
theorem c8_project_idempotent (R : Relation) (attrs : List Str)
    (hsub : ∀ a ∈ attrs, a ∈ R.attributes) :
    (match project_rel R attrs with
      | .error e => .error e
      | .ok R1 => project_rel R1 attrs) = project_rel R attrs := by
  cases hp : project_rel R attrs with
  | error e => rfl
  | ok R1 => exact project_rel_ok_of_sub hsub hp

/-- Witness for C8: a two-column relation with a duplicate row, projected
twice onto its first column. -/
theorem c8_witness :
    (∀ a ∈ [['a']], a ∈ ([['a'], ['b']] : List Str)) ∧
    (match project_rel ⟨[['a'], ['b']], [[Value.int 1, Value.int 2], [Value.int 1, Value.int 3]]⟩
        [['a']] with
      | .error e => .error e
      | .ok R1 => project_rel R1 [['a']]) =
      project_rel ⟨[['a'], ['b']], [[Value.int 1, Value.int 2], [Value.int 1, Value.int 3]]⟩
        [['a']] :=
  ⟨by decide,
    c8_project_idempotent ⟨[['a'], ['b']], [[Value.int 1, Value.int 2], [Value.int 1, Value.int 3]]⟩
      [['a']] (by decide)⟩

/-- C5 counterexample: with schema `[a, a!]` and tuple `(5, 5)`, the condition
`a!=5` is first split on the one-character `=` (tried before `!=` in the
source's operator list); the left part `a!` is an attribute, so an equality
test on `a!` runs (giving `True`) instead of the claimed `!=` comparison on
`a` (which gives `False`). -/
theorem c5_counterexample :
    evaluate_condition ['a', '!', '=', '5'] [['a'], ['a', '!']]
        [Value.int 5, Value.int 5] = .ok true ∧
    applyOp ['!', '='] (Value.int 5) (coerceLit ['5']) = .ok false := by
  constructor
  · decide
  · decide

/-- C5 (amended): for operator-free, whitespace-free (alphanumeric) attribute
and literal text with the attribute in the schema, `a>=v` and `a<=v` evaluate
the two-character comparison; `a!=v` does too, but only by falling through
the earlier mis-split on `=`, which requires that `a!` not itself be an
attribute of the schema. -/
theorem c5_two_char_ops_amended {a v : Str} {A : List Str} {T : List Value}
    (ha : ∀ c ∈ a, c.isAlphanum = true) (hv : ∀ c ∈ v, c.isAlphanum = true)
    (hm : a ∈ A) :
    evaluate_condition (a ++ ['>', '='] ++ v) A T = condResult ['>', '='] A T a v ∧
    evaluate_condition (a ++ ['<', '='] ++ v) A T = condResult ['<', '='] A T a v ∧
    ((a ++ ['!']) ∉ A →
      evaluate_condition (a ++ ['!', '='] ++ v) A T = condResult ['!', '='] A T a v) :=
  ⟨evalCond_ge ha hv hm, evalCond_le ha hv hm, fun hnA => evalCond_ne ha hv hm hnA⟩

/-- Witness for C5: attribute `s`, literal `5`, schema `[s]`, tuple `(7)`. -/
theorem c5_witness :
    (∀ c ∈ (['s'] : Str), c.isAlphanum = true) ∧
    (∀ c ∈ (['5'] : Str), c.isAlphanum = true) ∧
    (['s'] : Str) ∈ ([['s']] : List Str) ∧
    ((['s'] : Str) ++ ['!']) ∉ ([['s']] : List Str) ∧
    evaluate_condition (['s'] ++ ['!', '='] ++ ['5']) [['s']] [Value.int 7] =
      condResult ['!', '='] [['s']] [Value.int 7] ['s'] ['5'] := by
  refine ⟨by decide, by decide, by decide, by decide, ?_⟩
  exact (c5_two_char_ops_amended (A := [['s']]) (T := [Value.int 7])
    (by decide) (by decide) (by decide)).2.2 (by decide)

/-- C9 counterexample: the tuple value written `""x""` is stored as the text
`x` — Python's `strip('"')` removes every surrounding quote character, not
one layer, so the inner quote layer the claim says is retained is gone. -/
theorem c9_counterexample :
    parse_relation []
        ('R' :: ' ' :: '(' :: 'a' :: ')' :: ' ' :: '=' :: ' ' :: '\x7b' :: '\n' ::
         '\x22' :: '\x22' :: 'x' :: '\x22' :: '\x22' :: '\n' :: '\x7d' :: []) =
      [(['R'], ⟨[['a']], [[Value.text ['x']]]⟩)] ∧
    (['x'] : Str) ≠ ['\x22', 'x', '\x22'] := by
  constructor
  · decide
  · decide

/-- C9 (amended): value conversion strips every layer of surrounding quote
characters: wrapping a whitespace-free value whose ends are not quotes in any
number `k` of quote layers stores exactly what the bare value stores. -/
theorem c9_quote_stripping_amended (s : Str) (k : Nat) (hne : s ≠ [])
    (hws : ∀ c ∈ s, isPySpace c = false)
    (hh : s.head? ≠ some '\x22') (hl : s.getLast? ≠ some '\x22') :
    convertVal (List.replicate k '\x22' ++ s ++ List.replicate k '\x22') = convertVal s := by
  have hhead : ∀ c : Char, s.head? = some c → ((fun c => c == '\x22') c) = false := by
    intro c hc
    have : c ≠ '\x22' := fun he => hh (he ▸ hc)
    simp [this]
  have hlast : ∀ c : Char, s.getLast? = some c → ((fun c => c == '\x22') c) = false := by
    intro c hc
    have : c ≠ '\x22' := fun he => hl (he ▸ hc)
    simp [this]
  have hwrapws : pyStripWs (List.replicate k '\x22' ++ s ++ List.replicate k '\x22') =
      List.replicate k '\x22' ++ s ++ List.replicate k '\x22' := by
    apply pyStrip_of_all
    intro c hc
    rcases List.mem_append.1 hc with hc2 | hc2
    · rcases List.mem_append.1 hc2 with hc3 | hc3
      · rw [List.eq_of_mem_replicate hc3]; decide
      · exact hws c hc3
    · rw [List.eq_of_mem_replicate hc2]; decide
  have hsws : pyStripWs s = s := pyStrip_of_all hws
  have hstrip2 : pyStrip (fun c => c == '\x22') s = s := pyStrip_ends_id hhead hlast
  have hstrip1 : pyStrip (fun c => c == '\x22')
      (List.replicate k '\x22' ++ s ++ List.replicate k '\x22') = s := by
    rw [pyStrip]
    have e1 : (List.replicate k '\x22' ++ s ++ List.replicate k '\x22').dropWhile
        (fun c => c == '\x22') = s ++ List.replicate k '\x22' := by
      rw [List.append_assoc,
        dropWhile_replicate_append (p := fun c => c == '\x22') (by decide)]
      apply dropWhile_head_false
      intro c hc
      cases s with
      | nil => exact absurd rfl hne
      | cons b t =>
        rw [List.cons_append, List.head?_cons] at hc
        exact hhead c (by rw [List.head?_cons]; exact hc)
    rw [e1, List.reverse_append, List.reverse_replicate,
      dropWhile_replicate_append (p := fun c => c == '\x22') (by decide)]
    rw [dropWhile_head_false, List.reverse_reverse]
    intro c hc
    rw [List.head?_reverse] at hc
    exact hlast c hc
  rw [convertVal, convertVal, hwrapws, hsws, hstrip1, hstrip2]

/-- Witness for C9: the value `x` wrapped in two quote layers. -/
theorem c9_witness :
    (['x'] : Str) ≠ [] ∧
    (∀ c ∈ (['x'] : Str), isPySpace c = false) ∧
    (['x'] : Str).head? ≠ some '\x22' ∧
    (['x'] : Str).getLast? ≠ some '\x22' ∧
    convertVal (List.replicate 2 '\x22' ++ ['x'] ++ List.replicate 2 '\x22') =
      convertVal ['x'] := by
  refine ⟨by decide, by decide, by decide, by decide, ?_⟩
  exact c9_quote_stripping_amended ['x'] 2 (by decide) (by decide) (by decide) (by decide)

/-- C10: when the tuple's attribute value and the coerced literal have
different runtime types, the equality operators still return (`=` gives
`False`, `!=` gives `True`), while every ordering operator raises
`TypeError` instead of returning a truth value. -/
theorem c10_cross_type_comparisons {a v : Str} {A : List Str} {T : List Value} {tv : Value}
    (ha : ∀ c ∈ a, c.isAlphanum = true) (hv : ∀ c ∈ v, c.isAlphanum = true)
    (hm : a ∈ A) (hnA : (a ++ ['!']) ∉ A)
    (htv : getVal T (A.indexOf a) = .ok tv)
    (hmix : sameType tv (coerceLit v) = false) :
    evaluate_condition (a ++ ['='] ++ v) A T = .ok false ∧
    evaluate_condition (a ++ ['!', '='] ++ v) A T = .ok true ∧
    evaluate_condition (a ++ ['>'] ++ v) A T = .error .typeError ∧
    evaluate_condition (a ++ ['<'] ++ v) A T = .error .typeError ∧
    evaluate_condition (a ++ ['>', '='] ++ v) A T = .error .typeError ∧
    evaluate_condition (a ++ ['<', '='] ++ v) A T = .error .typeError := by
  refine ⟨?_, ?_, ?_, ?_, ?_, ?_⟩
  · rw [evalCond_eq ha hv hm, condResult, htv]
    exact applyOp_eq_mismatch hmix
  · rw [evalCond_ne ha hv hm hnA, condResult, htv]
    exact applyOp_ne_mismatch hmix
  · rw [evalCond_gt ha hv hm, condResult, htv]
    exact applyOp_gt_mismatch hmix
  · rw [evalCond_lt ha hv hm, condResult, htv]
    exact applyOp_lt_mismatch hmix
  · rw [evalCond_ge ha hv hm, condResult, htv]
    exact applyOp_ge_mismatch hmix
  · rw [evalCond_le ha hv hm, condResult, htv]
    exact applyOp_le_mismatch hmix

/-- Witness for C10: an Integer attribute value `7` compared against the
Text-coercing literal `x`. -/
theorem c10_witness :
    (∀ c ∈ (['s'] : Str), c.isAlphanum = true) ∧
    (∀ c ∈ (['x'] : Str), c.isAlphanum = true) ∧
    (['s'] : Str) ∈ ([['s']] : List Str) ∧
    ((['s'] : Str) ++ ['!']) ∉ ([['s']] : List Str) ∧
    getVal [Value.int 7] (([['s']] : List Str).indexOf ['s']) = .ok (Value.int 7) ∧
    sameType (Value.int 7) (coerceLit ['x']) = false ∧
    evaluate_condition (['s'] ++ ['>'] ++ ['x']) [['s']] [Value.int 7] = .error .typeError := by
  refine ⟨by decide, by decide, by decide, by decide, by decide, by decide, ?_⟩
  exact (@c10_cross_type_comparisons ['s'] ['x'] [['s']] [Value.int 7] (Value.int 7)
    (by decide) (by decide) (by decide) (by decide) (by decide) (by decide)).2.2.1

/-- C2 counterexample: with `Emp(a) = {(2)}` stored, the unparenthesized
query `select a>1 Emp` — accepted by the claimed grammar rule — returns the
failure value `None` (both nested-query regexes demand a literal
parenthesis), even though the selection on `Emp` itself succeeds. -/
theorem c2_counterexample :
    parse_query [(['E', 'm', 'p'], ⟨[['a']], [[Value.int 2]]⟩)]
        ['s', 'e', 'l', 'e', 'c', 't', ' ', 'a', '>', '1', ' ', 'E', 'm', 'p'] =
      (.ok none, [(['E', 'm', 'p'], ⟨[['a']], [[Value.int 2]]⟩)]) ∧
    select_operation [(['E', 'm', 'p'], ⟨[['a']], [[Value.int 2]]⟩)] ['E', 'm', 'p']
        ['a', '>', '1'] = .ok (some ⟨[['a']], [[Value.int 2]]⟩) := by
  constructor
  · rw [parse_query.eq_def]
    rw [show caps2 (reMatch projectPat (pyStripWs
      ['s', 'e', 'l', 'e', 'c', 't', ' ', 'a', '>', '1', ' ', 'E', 'm', 'p'])) = none from
      by decide]
    rw [parse_from_select.eq_def]
    rw [show caps2 (reMatch selectPat (pyStripWs
      ['s', 'e', 'l', 'e', 'c', 't', ' ', 'a', '>', '1', ' ', 'E', 'm', 'p'])) = none from
      by decide]
    decide
  · decide

/-- C2 (amended): the unparenthesized select/project forms are not accepted:
every query that (after stripping) starts with `select` or `project` and
contains no parenthesis falls through every grammar rule and returns the
failure value `None`, leaving the store unchanged. -/
theorem c2_unparenthesized_rejected {store : Store} {q : Str}
    (hp : '(' ∉ q)
    (hkw : ('s' :: 'e' :: 'l' :: 'e' :: 'c' :: 't' :: []).isPrefixOf (pyStripWs q) = true ∨
      ('p' :: 'r' :: 'o' :: 'j' :: 'e' :: 'c' :: 't' :: []).isPrefixOf (pyStripWs q) = true) :
    parse_query store q = (.ok none, store) := by
  have hp' : '(' ∉ pyStripWs q := fun hc => hp (mem_pyStrip hc)
  have hproj : caps2 (reMatch projectPat (pyStripWs q)) = none := by
    cases hm : reMatch projectPat (pyStripWs q) with
    | none => rfl
    | some caps => exact absurd (projectPat_needs_paren hm) hp'
  have hsel : caps2 (reMatch selectPat (pyStripWs q)) = none := by
    cases hm : reMatch selectPat (pyStripWs q) with
    | none => rfl
    | some caps => exact absurd (selectPat_needs_paren hm) hp'
  have hbin : parse_binary store (pyStripWs q) = .ok none := by
    rcases hkw with h | h
    · exact parse_binary_none h (by decide) (by decide) (by decide) (by decide)
    · exact parse_binary_none h (by decide) (by decide) (by decide) (by decide)
  rw [parse_query.eq_def, hproj, parse_from_select.eq_def, hsel, hbin]

/-- Witness for C2: the paren-free query `select x`. -/
theorem c2_witness :
    ('(' ∉ (['s', 'e', 'l', 'e', 'c', 't', ' ', 'x'] : Str)) ∧
    ('s' :: 'e' :: 'l' :: 'e' :: 'c' :: 't' :: []).isPrefixOf
      (pyStripWs ['s', 'e', 'l', 'e', 'c', 't', ' ', 'x']) = true ∧
    parse_query [] ['s', 'e', 'l', 'e', 'c', 't', ' ', 'x'] = (.ok none, ([] : Store)) := by
  refine ⟨by decide, by decide, ?_⟩
  exact c2_unparenthesized_rejected (by decide) (Or.inl (by decide))

/-- C3 counterexample: evaluating `select a>5 (R)` where `R`'s only tuple
holds the Text value `x` applies Python `>` to a `str` and an `int`, which
raises `TypeError`; the evaluation is an exception, not a result-or-failure
value, contradicting the claim that no query evaluation raises. -/
theorem c3_counterexample :
    parse_query [(['R'], ⟨[['a']], [[Value.text ['x']]]⟩)]
        ['s', 'e', 'l', 'e', 'c', 't', ' ', 'a', '>', '5', ' ', '(', 'R', ')'] =
      (.error .typeError, [(['R'], ⟨[['a']], [[Value.text ['x']]]⟩)]) := by
  rw [parse_query.eq_def]
  rw [show caps2 (reMatch projectPat (pyStripWs
    ['s', 'e', 'l', 'e', 'c', 't', ' ', 'a', '>', '5', ' ', '(', 'R', ')'])) = none from
    by decide]
  rw [parse_from_select.eq_def]
  rw [show caps2 (reMatch selectPat (pyStripWs
    ['s', 'e', 'l', 'e', 'c', 't', ' ', 'a', '>', '5', ' ', '(', 'R', ')'])) =
    some (['a', '>', '5'], ['R']) from by decide]
  decide

/-- C3 (amended): queries led by `union`, `intersection` or `difference`
never raise: their evaluation always returns a result-or-`None` value and
leaves the store untouched.  (Select/project evaluation can raise — see the
counterexample.) -/
theorem c3_setop_queries_return {store : Store} {q : Str}
    (hkw : ('u' :: 'n' :: 'i' :: 'o' :: 'n' :: []).isPrefixOf (pyStripWs q) = true ∨
      ('i' :: 'n' :: 't' :: 'e' :: 'r' :: 's' :: 'e' :: 'c' :: 't' :: 'i' :: 'o' :: 'n' :: []).isPrefixOf
        (pyStripWs q) = true ∨
      ('d' :: 'i' :: 'f' :: 'f' :: 'e' :: 'r' :: 'e' :: 'n' :: 'c' :: 'e' :: []).isPrefixOf
        (pyStripWs q) = true) :
    ∃ v, parse_query store q = (.ok v, store) := by
  have hproj : caps2 (reMatch projectPat (pyStripWs q)) = none := by
    cases hm : reMatch projectPat (pyStripWs q) with
    | none => rfl
    | some caps =>
      exfalso
      have hlit : ('p' :: 'r' :: 'o' :: 'j' :: 'e' :: 'c' :: 't' :: []).isPrefixOf
          (pyStripWs q) = true := reMatch_head_lit hm
      rcases hkw with h | h | h <;>
        exact absurd (two_prefixes_same_head hlit h) (by decide)
  have hsel : caps2 (reMatch selectPat (pyStripWs q)) = none := by
    cases hm : reMatch selectPat (pyStripWs q) with
    | none => rfl
    | some caps =>
      exfalso
      have hlit : ('s' :: 'e' :: 'l' :: 'e' :: 'c' :: 't' :: []).isPrefixOf
          (pyStripWs q) = true := reMatch_head_lit hm
      rcases hkw with h | h | h <;>
        exact absurd (two_prefixes_same_head hlit h) (by decide)
  have hjoin : caps2 (reMatch (relPairPat ('j' :: 'o' :: 'i' :: 'n' :: []))
      (pyStripWs q)) = none := by
    cases hm : reMatch (relPairPat ('j' :: 'o' :: 'i' :: 'n' :: [])) (pyStripWs q) with
    | none => rfl
    | some caps =>
      exfalso
      have hlit : ('j' :: 'o' :: 'i' :: 'n' :: []).isPrefixOf (pyStripWs q) = true :=
        reMatch_head_lit hm
      rcases hkw with h | h | h <;>
        exact absurd (two_prefixes_same_head hlit h) (by decide)
  obtain ⟨v, hbin⟩ := @parse_binary_ok_of_no_join store (pyStripWs q) hjoin
  refine ⟨v, ?_⟩
  rw [parse_query.eq_def, hproj, parse_from_select.eq_def, hsel, hbin]

/-- Witness for C3: the query `union A B` on the empty store. -/
theorem c3_witness :
    ('u' :: 'n' :: 'i' :: 'o' :: 'n' :: []).isPrefixOf
      (pyStripWs ['u', 'n', 'i', 'o', 'n', ' ', 'A', ' ', 'B']) = true ∧
    (∃ v, parse_query [] ['u', 'n', 'i', 'o', 'n', ' ', 'A', ' ', 'B'] =
      (.ok v, ([] : Store))) := by
  refine ⟨by decide, ?_⟩
  exact c3_setop_queries_return (Or.inl (by decide))

/-- C6 counterexample: three queries failing for the three different
claimed reasons — schema mismatch (`union A B` with differing schemas),
missing relation (`union A C`), unrecognized query (`blah`) — all return the
same undifferentiated value `None`; the caller cannot tell the failure kinds
apart from the returned value. -/
theorem c6_counterexample :
    parse_query [(['A'], ⟨[['a']], []⟩), (['B'], ⟨[['b']], []⟩)]
        ['u', 'n', 'i', 'o', 'n', ' ', 'A', ' ', 'B'] =
      (.ok none, [(['A'], ⟨[['a']], []⟩), (['B'], ⟨[['b']], []⟩)]) ∧
    parse_query [(['A'], ⟨[['a']], []⟩), (['B'], ⟨[['b']], []⟩)]
        ['u', 'n', 'i', 'o', 'n', ' ', 'A', ' ', 'C'] =
      (.ok none, [(['A'], ⟨[['a']], []⟩), (['B'], ⟨[['b']], []⟩)]) ∧
    parse_query [(['A'], ⟨[['a']], []⟩), (['B'], ⟨[['b']], []⟩)] ['b', 'l', 'a', 'h'] =
      (.ok none, [(['A'], ⟨[['a']], []⟩), (['B'], ⟨[['b']], []⟩)]) := by
  refine ⟨?_, ?_, ?_⟩
  · rw [parse_query.eq_def]
    rw [show caps2 (reMatch projectPat (pyStripWs
      ['u', 'n', 'i', 'o', 'n', ' ', 'A', ' ', 'B'])) = none from by decide]
    rw [parse_from_select.eq_def]
    rw [show caps2 (reMatch selectPat (pyStripWs
      ['u', 'n', 'i', 'o', 'n', ' ', 'A', ' ', 'B'])) = none from by decide]
    decide
  · rw [parse_query.eq_def]
    rw [show caps2 (reMatch projectPat (pyStripWs
      ['u', 'n', 'i', 'o', 'n', ' ', 'A', ' ', 'C'])) = none from by decide]
    rw [parse_from_select.eq_def]
    rw [show caps2 (reMatch selectPat (pyStripWs
      ['u', 'n', 'i', 'o', 'n', ' ', 'A', ' ', 'C'])) = none from by decide]
    decide
  · rw [parse_query.eq_def]
    rw [show caps2 (reMatch projectPat (pyStripWs ['b', 'l', 'a', 'h'])) = none from by decide]
    rw [parse_from_select.eq_def]
    rw [show caps2 (reMatch selectPat (pyStripWs ['b', 'l', 'a', 'h'])) = none from by decide]
    decide

/-- C6 (amended): the failure outcomes are not typed: a missing operand, a
schema mismatch, and an unmatched query all collapse to the single value
`None` (`Option.none` here), the only failure value the core ever returns. -/
theorem c6_failures_collapse_amended :
    (∀ (store : Store) (n1 n2 : Str), storeLookup store n1 = none →
      union_operation store n1 n2 = none) ∧
    (∀ (store : Store) (n1 n2 : Str) (r1 r2 : Relation),
      storeLookup store n1 = some r1 → storeLookup store n2 = some r2 →
      r1.attributes ≠ r2.attributes → union_operation store n1 n2 = none) ∧
    (∀ (store : Store) (q : Str), pyStripWs q = [] →
      parse_query store q = (.ok none, store)) := by
  refine ⟨?_, ?_, ?_⟩
  · intro store n1 n2 h
    rw [union_operation, h]
  · intro store n1 n2 r1 r2 h1 h2 hne
    have hu : union_operation store n1 n2 = union_rel r1 r2 := by
      rw [union_operation, h1, h2]
    rw [hu, union_rel, if_neg hne]
  · intro store q h
    rw [parse_query.eq_def, h, parse_from_select.eq_def]
    rfl

/-- Witness for C6: a missing left operand. -/
theorem c6_witness :
    storeLookup ([] : Store) ['A'] = none ∧
    union_operation ([] : Store) ['A'] ['B'] = none := by
  refine ⟨by decide, ?_⟩
  exact c6_failures_collapse_amended.1 [] ['A'] ['B'] (by decide)
